import Mathlib

/-!
Verification of the three-way merge engine (diff3-style) of this repository.

The engine (`py3seed/merge3.py`) is exercised by `tests/test_merge3.py` and
called from `py3seed/commands/gen.py`, but its own source file is not part of
the provided tree.  All definitions below are therefore modelled from the
specification (spec.md sections 3, 4, 6 and 7) and validated against the
concrete expectations recorded in `tests/test_merge3.py`.
-/

set_option maxRecDepth 4000

namespace Merge3

variable {α : Type} [DecidableEq α]
variable {β γ : Type}

/-- Contiguous segment `l[s:e]` of a sequence, in Python slice notation. -/
def seg (l : List α) (s e : Nat) : List α := (l.drop s).take (e - s)

/-- Concatenation of `f` applied to every element, in order. -/
def concatMap (f : β → List γ) : List β → List γ
  | [] => []
  | x :: xs => f x ++ concatMap f xs

/-- Length of the longest common prefix of two sequences. -/
def commonPrefixLen : List α → List α → Nat
  | x :: xs, y :: ys => if x = y then commonPrefixLen xs ys + 1 else 0
  | _, _ => 0

/-- Left-biased maximum of two candidate runs: the right one wins only when
strictly longer, so on ties the leftmost candidate survives. -/
def lmCombine (l r : Nat × Nat × Nat) : Nat × Nat × Nat :=
  if l.2.2 < r.2.2 then r else l

/-- The candidate run at flattened index `e`: start pair
`(e / ly1, e % ly1)` together with the length of the common run there.
Flattened indices enumerate start pairs in lexicographic order. -/
def lmCand (x y : List α) (ly1 e : Nat) : Nat × Nat × Nat :=
  let i := e / ly1
  let j := e % ly1
  (i, j, commonPrefixLen (x.drop i) (y.drop j))

/-- Left-biased maximum candidate run over the flattened index range
`[lo, lo + len)`, computed by balanced splitting; `fuel ≥ len` always
suffices. -/
def lmSpan (x y : List α) (ly1 : Nat) : Nat → Nat → Nat → Nat × Nat × Nat
  | 0, _, _ => (0, 0, 0)
  | _ + 1, _, 0 => (0, 0, 0)
  | _ + 1, lo, 1 => lmCand x y ly1 lo
  | fuel + 1, lo, len =>
    lmCombine (lmSpan x y ly1 fuel lo (len / 2))
      (lmSpan x y ly1 fuel (lo + len / 2) (len - len / 2))

/-- Modelled from the spec: the Block Matcher selects the longest common
contiguous run between two sequences, ties broken by leftmost position in the
first sequence (then in the second).  Returns `(i, j, k)` with
`x[i:i+k] == y[j:j+k]`; `k = 0` means no common run. -/
def longestMatch (x y : List α) : Nat × Nat × Nat :=
  let ly1 := y.length + 1
  let n := (x.length + 1) * ly1
  lmSpan x y ly1 n 0 n

/-- Modelled from the spec: the Block Matcher repeatedly selects the longest
common run and recurses on the pieces to the left and to the right of it;
zero-length blocks are never emitted.  `fuel` only bounds the recursion depth
(`x.length + y.length + 1` always suffices). -/
def mbAux : Nat → List α → List α → List (Nat × Nat × Nat)
  | 0, _, _ => []
  | fuel + 1, x, y =>
    let m := longestMatch x y
    if m.2.2 = 0 then []
    else
      mbAux fuel (x.take m.1) (y.take m.2.1)
        ++ (m.1, m.2.1, m.2.2)
          :: (mbAux fuel (x.drop (m.1 + m.2.2)) (y.drop (m.2.1 + m.2.2))).map
              (fun b => (m.1 + m.2.2 + b.1, m.2.1 + m.2.2 + b.2.1, b.2.2))

/-- Matching Blocks of two sequences: maximal non-overlapping runs, strictly
increasing in both offsets, terminated by the sentinel `(|x|, |y|, 0)`. -/
def get_matching_blocks (x y : List α) : List (Nat × Nat × Nat) :=
  mbAux (x.length + y.length + 1) x y ++ [(x.length, y.length, 0)]

/-- A Sync Region: the three subsequences
`base[zLo:zHi]`, `a[aLo:aHi]`, `b[bLo:bHi]` are pairwise equal. -/
structure SyncRegion where
  zLo : Nat
  zHi : Nat
  aLo : Nat
  aHi : Nat
  bLo : Nat
  bHi : Nat
deriving DecidableEq

/-- Modelled from the spec: the Sync Region Finder walks the two block lists
in lockstep over base coordinates, emits the non-empty intersection
`[max of starts, min of ends)` of the two current blocks translated into all
three coordinate systems, and advances whichever block ends first in the
base. -/
def syncLoop : Nat → List (Nat × Nat × Nat) → List (Nat × Nat × Nat) → List SyncRegion
  | fuel + 1, (az, aj, ak) :: arest, (bz, bj, bk) :: brest =>
    let lo := max az bz
    let hi := min (az + ak) (bz + bk)
    let rest :=
      if az + ak < bz + bk then syncLoop fuel arest ((bz, bj, bk) :: brest)
      else syncLoop fuel ((az, aj, ak) :: arest) brest
    if lo < hi then
      ⟨lo, hi, aj + (lo - az), aj + (hi - az), bj + (lo - bz), bj + (hi - bz)⟩ :: rest
    else rest
  | _, _, _ => []

/-- Sync Regions of the triple, in increasing base order, terminated by the
zero-length sentinel just past the end of all three sequences. -/
def find_sync_regions (base a b : List α) : List SyncRegion :=
  let am := get_matching_blocks base a
  let bm := get_matching_blocks base b
  syncLoop (am.length + bm.length) am bm
    ++ [⟨base.length, base.length, a.length, a.length, b.length, b.length⟩]

/-- A Merge Region.  `unchanged` spans carry base offsets, `same`/`onlyA`
spans carry offsets into `a` (OTHER), `onlyB` spans carry offsets into `b`
(THIS); a conflict carries the base span (absent for conflicts produced by
reprocessing) and the spans into `a` and `b`. -/
inductive MergeRegion where
  | unchanged (lo hi : Nat)
  | same (lo hi : Nat)
  | onlyA (lo hi : Nat)
  | onlyB (lo hi : Nat)
  | conflict (zSpan : Option (Nat × Nat)) (aLo aHi bLo bHi : Nat)
deriving DecidableEq

/-- Whether a Merge Region is a conflict. -/
def MergeRegion.isConflict : MergeRegion → Bool
  | .conflict _ _ _ _ _ => true
  | _ => false

/-- Modelled from the spec: cherry-pick conflict reduction.  The base-side gap
is matched against the `b`-side gap; only the unmatched `b` runs become
conflicts, the full `a` range being attached to the first one.  The reduction
is intentionally asymmetric in the order of the two derived sequences. -/
def cpWalk (zstart astart aend bstart : Nat) :
    List (Nat × Nat × Nat) → Nat → Nat → Bool → List MergeRegion
  | [], _, _, _ => []
  | (bi, vi, len) :: rest, lastB, lastV, yielded =>
    if lastV < vi then
      (if yielded then
        MergeRegion.conflict (some (zstart + lastB, zstart + bi)) aend aend
          (bstart + lastV) (bstart + vi)
      else
        MergeRegion.conflict (some (zstart + lastB, zstart + bi)) astart aend
          (bstart + lastV) (bstart + vi))
        :: cpWalk zstart astart aend bstart rest (bi + len) (vi + len) true
    else cpWalk zstart astart aend bstart rest (bi + len) (vi + len) yielded

/-- Cherry-pick refinement of one conflicting gap; when nothing on the `b`
side survives the reduction the full conflict is emitted unchanged. -/
def refineCherrypick (base b : List α) (zstart zend astart aend bstart bend : Nat) :
    List MergeRegion :=
  let ms := get_matching_blocks (seg base zstart zend) (seg b bstart bend)
  let out := cpWalk zstart astart aend bstart ms 0 0 false
  if out = [] then [MergeRegion.conflict (some (zstart, zend)) astart aend bstart bend]
  else out

/-- Modelled from the spec: the Region Classifier's five-way comparison of one
gap, in the spec's order: Unchanged, ChangedByOther (`onlyA`), ChangedByThis
(`onlyB`), ChangedBySameEdit (`same`), Conflict.  Empty unchanged gaps
collapse to nothing; in cherry-pick mode a conflicting gap is refined. -/
def classifyGap (base a b : List α) (cp : Bool) (iz zM ia aM ib bM : Nat) :
    List MergeRegion :=
  let bg := seg base iz zM
  let og := seg a ia aM
  let tg := seg b ib bM
  if og = bg ∧ tg = bg then
    if bg = [] then [] else [MergeRegion.unchanged iz zM]
  else if tg = bg then [MergeRegion.onlyA ia aM]
  else if og = bg then [MergeRegion.onlyB ib bM]
  else if og = tg then [MergeRegion.same ia aM]
  else if cp then refineCherrypick base b iz zM ia aM ib bM
  else [MergeRegion.conflict (some (iz, zM)) ia aM ib bM]

/-- Modelled from the spec: walk the sync regions keeping three cursors,
classify every gap, and emit each non-empty sync region as `unchanged`. -/
def mergeLoop (base a b : List α) (cp : Bool) :
    List SyncRegion → Nat → Nat → Nat → List MergeRegion
  | [], _, _, _ => []
  | r :: rest, iz, ia, ib =>
    classifyGap base a b cp iz r.zLo ia r.aLo ib r.bLo
      ++ (if r.zLo < r.zHi then
            MergeRegion.unchanged r.zLo r.zHi :: mergeLoop base a b cp rest r.zHi r.aHi r.bHi
          else mergeLoop base a b cp rest r.zLo r.aLo r.bLo)

/-- Merge Regions of the triple (classification only, no rendering). -/
def merge_regions (base a b : List α) (cp : Bool) : List MergeRegion :=
  mergeLoop base a b cp (find_sync_regions base a b) 0 0 0

/-- A Merge Region with its element groups materialized. -/
inductive MergeGroup (α : Type) where
  | unchanged (l : List α)
  | same (l : List α)
  | onlyA (l : List α)
  | onlyB (l : List α)
  | conflict (baseL otherL thisL : List α)
deriving DecidableEq

/-- Materialize one Merge Region using its tag-dependent coordinate system:
`unchanged` reads from BASE, `same`/`onlyA` from OTHER (`a`), `onlyB` from
THIS (`b`), and a conflict reads its three spans from BASE, OTHER and THIS. -/
def materialize (base a b : List α) : MergeRegion → MergeGroup α
  | .unchanged lo hi => .unchanged (seg base lo hi)
  | .same lo hi => .same (seg a lo hi)
  | .onlyA lo hi => .onlyA (seg a lo hi)
  | .onlyB lo hi => .onlyB (seg b lo hi)
  | .conflict zSpan al ah bl bh =>
      .conflict (match zSpan with | some zz => seg base zz.1 zz.2 | none => [])
        (seg a al ah) (seg b bl bh)

/-- Merge groups: the classified regions with their contents materialized. -/
def merge_groups (base a b : List α) (cp : Bool) : List (MergeGroup α) :=
  (merge_regions base a b cp).map (materialize base a b)

/-- One mismatching stretch between two matched runs inside a reprocessed
conflict; empty when both sides are exhausted. -/
def mismatchRegion (nextA riA nextB riB : Nat) : List MergeRegion :=
  if nextA < riA ∨ nextB < riB then [MergeRegion.conflict none nextA riA nextB riB]
  else []

/-- Walk the matching blocks found inside a conflict, alternating mismatching
stretches (smaller conflicts, no base attribution) and matched runs (`same`). -/
def rpWalk (ia aM ib bM : Nat) : List (Nat × Nat × Nat) → Nat → Nat → List MergeRegion
  | [], nextA, nextB => mismatchRegion nextA aM nextB bM
  | (ri, rj, len) :: rest, nextA, nextB =>
    mismatchRegion nextA (ia + ri) nextB (ib + rj)
      ++ MergeRegion.same (ia + ri) (ia + ri + len)
        :: rpWalk ia aM ib bM rest (ia + ri + len) (ib + rj + len)

/-- Modelled from the spec: reprocessing re-runs the Block Matcher between the
two sides of each conflict, emitting the common sub-runs without markers and
the rest as smaller conflicts; all other regions pass through unchanged. -/
def reprocessRegions (a b : List α) (regs : List MergeRegion) : List MergeRegion :=
  concatMap
    (fun r =>
      match r with
      | MergeRegion.conflict _ ia aM ib bM =>
          rpWalk ia aM ib bM ((get_matching_blocks (seg a ia aM) (seg b ib bM)).dropLast) ia ib
      | r => [r])
    regs

/-- The engine's only hard failure: reprocess and show-base requested
together. -/
inductive MergeError where
  | cantReprocessAndShowBase
deriving DecidableEq

/-- Whether `p` is a suffix of `s`, on the underlying character lists. -/
def strEndsWith (s p : String) : Bool := p.data.isSuffixOf s.data

/-- Modelled from the spec: the line-ending convention of the surrounding
sequence, detected from the first line of OTHER (`\r\n`, `\r` or `\n`). -/
def detectNewline (a : List String) : String :=
  match a with
  | [] => "\n"
  | l :: _ =>
    if strEndsWith l "\r\n" then "\r\n"
    else if strEndsWith l "\r" then "\r"
    else "\n"

/-- Render one Merge Region to output lines.  A conflict emits the start
marker line, the OTHER content, optionally the base marker line and BASE
content, the mid marker line, the THIS content and the end marker line. -/
def renderRegion (base a b : List String) (startLine midLine endLine : String)
    (baseLine : Option String) : MergeRegion → List String
  | .conflict zSpan al ah bl bh =>
      startLine
        :: (seg a al ah
          ++ (match baseLine, zSpan with
              | some m, some zz => m :: seg base zz.1 zz.2
              | _, _ => [])
          ++ midLine :: (seg b bl bh ++ [endLine]))
  | .unchanged lo hi => seg base lo hi
  | .same lo hi => seg a lo hi
  | .onlyA lo hi => seg a lo hi
  | .onlyB lo hi => seg b lo hi

/-- Modelled from the spec: `merge_lines` renders the merge in marker form.
Requesting `reprocess` together with a base marker fails with
`cantReprocessAndShowBase` before any region is processed; otherwise the
classified (and optionally reprocessed) regions are rendered in order, the
start/end markers suffixed with the OTHER/THIS labels when provided, every
marker line carrying the detected line ending. -/
def merge_lines (base a b : List String) (nameA nameB : Option String)
    (startM midM endM : String) (baseM : Option String) (reprocess cp : Bool) :
    Except MergeError (List String) :=
  if baseM.isSome && reprocess then Except.error MergeError.cantReprocessAndShowBase
  else
    let nl := detectNewline a
    let sLine := (match nameA with | some nm => startM ++ " " ++ nm | none => startM) ++ nl
    let eLine := (match nameB with | some nm => endM ++ " " ++ nm | none => endM) ++ nl
    let mLine := midM ++ nl
    let bLine := baseM.map (fun m => m ++ nl)
    let regs0 := merge_regions base a b cp
    let regs := if reprocess then reprocessRegions a b regs0 else regs0
    Except.ok (concatMap (renderRegion base a b sLine mLine eLine bLine) regs)

/-- Base-coordinate spans of the unconflicted sync regions, via the same
lockstep walk as the Sync Region Finder but without the sentinel. -/
def uncLoop : Nat → List (Nat × Nat × Nat) → List (Nat × Nat × Nat) → List (Nat × Nat)
  | fuel + 1, (az, aj, ak) :: arest, (bz, bj, bk) :: brest =>
    let lo := max az bz
    let hi := min (az + ak) (bz + bk)
    let rest :=
      if az + ak < bz + bk then uncLoop fuel arest ((bz, bj, bk) :: brest)
      else uncLoop fuel ((az, aj, ak) :: arest) brest
    if lo < hi then (lo, hi) :: rest else rest
  | _, _, _ => []

/-- Modelled from the spec: the derived query returning the base-coordinate
spans of all unconflicted regions. -/
def find_unconflicted (base a b : List α) : List (Nat × Nat) :=
  let am := get_matching_blocks base a
  let bm := get_matching_blocks base b
  uncLoop (am.length + bm.length) am bm

/-- The invariant of a candidate run `(i, j, k)`:
it stays inside both sequences and the two denoted runs are equal. -/
def LMInv (x y : List α) (p : Nat × Nat × Nat) : Prop :=
  p.1 + p.2.2 ≤ x.length ∧ p.2.1 + p.2.2 ≤ y.length ∧
    (x.drop p.1).take p.2.2 = (y.drop p.2.1).take p.2.2

/-- Block ordering: the first block ends before the second starts, in both
coordinates. -/
def Rb (p q : Nat × Nat × Nat) : Prop :=
  p.1 + p.2.2 ≤ q.1 ∧ p.2.1 + p.2.2 ≤ q.2.1

/-- Sync ordering: the first region ends before the second starts, in all
three coordinate systems at once. -/
def Rsync (r s : SyncRegion) : Prop :=
  r.zHi ≤ s.zLo ∧ r.aHi ≤ s.aLo ∧ r.bHi ≤ s.bLo

/-- How an emitted sync region arises from one block of each matcher run. -/
def SrcOK (A B : Nat × Nat × Nat) (r : SyncRegion) : Prop :=
  A.1 ≤ r.zLo ∧ B.1 ≤ r.zLo ∧ r.zLo < r.zHi ∧
    r.zHi ≤ A.1 + A.2.2 ∧ r.zHi ≤ B.1 + B.2.2 ∧
    r.aLo = A.2.1 + (r.zLo - A.1) ∧ r.aHi = A.2.1 + (r.zHi - A.1) ∧
    r.bLo = B.2.1 + (r.zLo - B.1) ∧ r.bHi = B.2.1 + (r.zHi - B.1)

/-- The sync regions produced when the `b` side matches the base completely:
every positive block of the base↔`a` matcher run becomes one region whose `b`
coordinates equal its base coordinates. -/
def diagA : List (Nat × Nat × Nat) → List SyncRegion
  | [] => []
  | (i, j, k) :: r =>
    if 0 < k then ⟨i, i + k, j, j + k, i, i + k⟩ :: diagA r else diagA r

/-- Mirror image of `diagA` for a fully matching `a` side. -/
def diagB : List (Nat × Nat × Nat) → List SyncRegion
  | [] => []
  | (i, j, k) :: r =>
    if 0 < k then ⟨i, i + k, i, i + k, j, j + k⟩ :: diagB r else diagB r

/-- The sync regions produced when the two derived sides are identical. -/
def diagS : List (Nat × Nat × Nat) → List SyncRegion
  | [] => []
  | (i, j, k) :: r =>
    if 0 < k then ⟨i, i + k, j, j + k, j, j + k⟩ :: diagS r else diagS r

/-- The sequence content a non-conflicting region denotes (conflicts denote
marker-wrapped content and are handled by the renderer instead). -/
def contentOf (base a b : List α) : MergeRegion → List α
  | .unchanged lo hi => seg base lo hi
  | .same lo hi => seg a lo hi
  | .onlyA lo hi => seg a lo hi
  | .onlyB lo hi => seg b lo hi
  | .conflict _ _ _ _ _ => []

/-- Final `a`-cursor after consuming a sync-region list. -/
def lastAe : List SyncRegion → Nat → Nat
  | [], d => d
  | r :: rest, _ => lastAe rest r.aHi

/-- Final `b`-cursor after consuming a sync-region list. -/
def lastBe : List SyncRegion → Nat → Nat
  | [], d => d
  | r :: rest, _ => lastBe rest r.bHi

/-! ### Basic facts about segments -/

theorem seg_self (l : List α) (i : Nat) : seg l i i = [] := by
  simp [seg]

theorem seg_zero_length (l : List α) : seg l 0 l.length = l := by
  simp [seg]

theorem seg_append (l : List α) {i m e : Nat} (him : i ≤ m) (hme : m ≤ e) :
    seg l i m ++ seg l m e = seg l i e := by
  unfold seg
  have h1 : e - i = (m - i) + (e - m) := by omega
  rw [h1, List.take_add, List.drop_drop]
  have h2 : i + (m - i) = m := by omega
  rw [h2]

theorem seg_length_le (l : List α) (i e : Nat) : (seg l i e).length ≤ e - i := by
  simp [seg]

/-- Transfer a segment equation through a common `take` window. -/
theorem take_window {X Y : List α} {n d t : Nat} (h : X.take n = Y.take n)
    (hdt : d + t ≤ n) : (X.drop d).take t = (Y.drop d).take t := by
  have hX : (X.drop d).take t = ((X.take n).drop d).take t := by
    rw [List.drop_take]
    rw [List.take_take]
    have : min t (n - d) = t := by omega
    rw [this]
  have hY : (Y.drop d).take t = ((Y.take n).drop d).take t := by
    rw [List.drop_take]
    rw [List.take_take]
    have : min t (n - d) = t := by omega
    rw [this]
  rw [hX, hY, h]

/-! ### The longest-match scan -/

theorem commonPrefixLen_le_left (xs ys : List α) :
    commonPrefixLen xs ys ≤ xs.length := by
  induction xs generalizing ys with
  | nil => simp [commonPrefixLen]
  | cons x xt ih =>
    cases ys with
    | nil => simp [commonPrefixLen]
    | cons y yt =>
      by_cases h : x = y <;> simp [commonPrefixLen, h]
      exact ih yt

theorem commonPrefixLen_le_right (xs ys : List α) :
    commonPrefixLen xs ys ≤ ys.length := by
  induction xs generalizing ys with
  | nil => simp [commonPrefixLen]
  | cons x xt ih =>
    cases ys with
    | nil => simp [commonPrefixLen]
    | cons y yt =>
      by_cases h : x = y <;> simp [commonPrefixLen, h]
      exact ih yt

theorem commonPrefixLen_take_eq (xs ys : List α) :
    xs.take (commonPrefixLen xs ys) = ys.take (commonPrefixLen xs ys) := by
  induction xs generalizing ys with
  | nil => simp [commonPrefixLen]
  | cons x xt ih =>
    cases ys with
    | nil => simp [commonPrefixLen]
    | cons y yt =>
      by_cases h : x = y
      · simp [commonPrefixLen, h, ih yt]
      · simp [commonPrefixLen, h]

theorem commonPrefixLen_self (xs : List α) : commonPrefixLen xs xs = xs.length := by
  induction xs with
  | nil => simp [commonPrefixLen]
  | cons x xt ih => simp [commonPrefixLen, ih]

theorem lmInv_zero (x y : List α) : LMInv x y (0, 0, 0) := by
  refine ⟨by simp, by simp, by simp⟩

theorem lmCand_inv (x y : List α) (e : Nat)
    (he : e < (x.length + 1) * (y.length + 1)) :
    LMInv x y (lmCand x y (y.length + 1) e) := by
  unfold lmCand LMInv
  dsimp only
  have hi : e / (y.length + 1) ≤ x.length := by
    have := (Nat.div_lt_iff_lt_mul (Nat.succ_pos y.length)).mpr he
    simp only [Nat.succ_eq_add_one] at this
    omega
  refine ⟨?_, ?_, commonPrefixLen_take_eq _ _⟩
  · have := commonPrefixLen_le_left (x.drop (e / (y.length + 1))) (y.drop (e % (y.length + 1)))
    simp only [List.length_drop] at this
    omega
  · have hj : e % (y.length + 1) < y.length + 1 := Nat.mod_lt _ (Nat.succ_pos _)
    have := commonPrefixLen_le_right (x.drop (e / (y.length + 1))) (y.drop (e % (y.length + 1)))
    simp only [List.length_drop] at this
    omega

theorem lmCombine_inv (x y : List α) {l r : Nat × Nat × Nat}
    (hl : LMInv x y l) (hr : LMInv x y r) : LMInv x y (lmCombine l r) := by
  unfold lmCombine
  by_cases h : l.2.2 < r.2.2 <;> simp [h, hl, hr]

theorem lmSpan_inv (x y : List α) (fuel lo len : Nat)
    (hb : lo + len ≤ (x.length + 1) * (y.length + 1)) :
    LMInv x y (lmSpan x y (y.length + 1) fuel lo len) := by
  induction fuel generalizing lo len with
  | zero => exact lmInv_zero x y
  | succ fuel ih =>
    match len with
    | 0 => exact lmInv_zero x y
    | 1 => exact lmCand_inv x y lo (by omega)
    | len + 2 =>
      show LMInv x y (lmCombine _ _)
      exact lmCombine_inv x y (ih _ _ (by omega)) (ih _ _ (by omega))

theorem longestMatch_inv (x y : List α) : LMInv x y (longestMatch x y) :=
  lmSpan_inv x y _ _ _ (by omega)

/-- Any candidate run inside a self-match is at most the full length. -/
theorem lmSpan_k_le_self (x : List α) (fuel lo len : Nat)
    (hb : lo + len ≤ (x.length + 1) * (x.length + 1)) :
    (lmSpan x x (x.length + 1) fuel lo len).2.2 ≤ x.length := by
  have h := lmSpan_inv x x fuel lo len hb
  rcases h with ⟨h1, _, _⟩
  omega

/-- On a self-match, every span starting at flattened index 0 returns the full
run `(0, 0, |x|)`. -/
theorem lmSpan_self (x : List α) (fuel len : Nat) (h1 : 1 ≤ len) (hf : len ≤ fuel)
    (hN : len ≤ (x.length + 1) * (x.length + 1)) :
    lmSpan x x (x.length + 1) fuel 0 len = (0, 0, x.length) := by
  induction fuel generalizing len with
  | zero => omega
  | succ fuel ih =>
    match len, h1 with
    | 1, _ =>
      show lmCand x x (x.length + 1) 0 = (0, 0, x.length)
      simp [lmCand, commonPrefixLen_self]
    | len + 2, _ =>
      show lmCombine (lmSpan x x (x.length + 1) fuel 0 ((len + 2) / 2)) _ = _
      rw [ih ((len + 2) / 2) (by omega) (by omega) (by omega)]
      have hk := lmSpan_k_le_self x fuel (0 + (len + 2) / 2) (len + 2 - (len + 2) / 2) (by omega)
      unfold lmCombine
      dsimp only
      rw [if_neg (by omega)]

theorem longestMatch_self (x : List α) : longestMatch x x = (0, 0, x.length) := by
  unfold longestMatch
  exact lmSpan_self x _ _ (Nat.mul_pos (Nat.succ_pos _) (Nat.succ_pos _)) (Nat.le_refl _)
    (Nat.le_refl _)

/-! ### Matching blocks -/

theorem take_drop_take (l : List α) (i i' k' : Nat) (h : i' + k' ≤ i) :
    ((l.take i).drop i').take k' = (l.drop i').take k' := by
  rw [List.drop_take, List.take_take]
  have : min k' (i - i') = k' := by omega
  rw [this]

theorem mbAux_left_nil (fuel : Nat) (y : List α) : mbAux fuel ([] : List α) y = [] := by
  cases fuel with
  | zero => rfl
  | succ fuel =>
    have h := longestMatch_inv ([] : List α) y
    rcases h with ⟨h1, _, _⟩
    simp only [List.length_nil] at h1
    show (if (longestMatch ([] : List α) y).2.2 = 0 then _ else _) = _
    rw [if_pos (by omega)]

/-- Unfolding equation for `mbAux` at positive fuel. -/
theorem mbAux_succ (fuel : Nat) (x y : List α) :
    mbAux (fuel + 1) x y =
      if (longestMatch x y).2.2 = 0 then []
      else
        mbAux fuel (x.take (longestMatch x y).1) (y.take (longestMatch x y).2.1)
          ++ ((longestMatch x y).1, (longestMatch x y).2.1, (longestMatch x y).2.2)
            :: (mbAux fuel (x.drop ((longestMatch x y).1 + (longestMatch x y).2.2))
                  (y.drop ((longestMatch x y).2.1 + (longestMatch x y).2.2))).map
                (fun b => ((longestMatch x y).1 + (longestMatch x y).2.2 + b.1,
                  (longestMatch x y).2.1 + (longestMatch x y).2.2 + b.2.1, b.2.2)) := rfl

theorem mbAux_mem (fuel : Nat) (x y : List α) :
    ∀ p ∈ mbAux fuel x y,
      0 < p.2.2 ∧ p.1 + p.2.2 ≤ x.length ∧ p.2.1 + p.2.2 ≤ y.length ∧
        (x.drop p.1).take p.2.2 = (y.drop p.2.1).take p.2.2 := by
  induction fuel generalizing x y with
  | zero => intro p hp; simp [mbAux] at hp
  | succ fuel ih =>
    intro p hp
    have hinv := longestMatch_inv x y
    rcases hinv with ⟨hix, hiy, hieq⟩
    rw [mbAux_succ] at hp
    by_cases hk : (longestMatch x y).2.2 = 0
    · rw [if_pos hk] at hp
      simp at hp
    · rw [if_neg hk] at hp
      rcases List.mem_append.mp hp with hp | hp
      · have h := ih _ _ p hp
        rcases h with ⟨hpk, hpx, hpy, hpeq⟩
        simp only [List.length_take] at hpx hpy
        refine ⟨hpk, by omega, by omega, ?_⟩
        have e1 : ((x.take (longestMatch x y).1).drop p.1).take p.2.2
            = (x.drop p.1).take p.2.2 := take_drop_take x _ _ _ (by omega)
        have e2 : ((y.take (longestMatch x y).2.1).drop p.2.1).take p.2.2
            = (y.drop p.2.1).take p.2.2 := take_drop_take y _ _ _ (by omega)
        rw [e1, e2] at hpeq
        exact hpeq
      · rcases List.mem_cons.mp hp with hp | hp
        · subst hp
          exact ⟨Nat.pos_of_ne_zero hk, hix, hiy, hieq⟩
        · rcases List.mem_map.mp hp with ⟨b, hb, hbp⟩
          have h := ih _ _ b hb
          rcases h with ⟨hbk, hbx, hby, hbeq⟩
          simp only [List.length_drop] at hbx hby
          subst hbp
          dsimp only
          refine ⟨hbk, by omega, by omega, ?_⟩
          have e1 : x.drop ((longestMatch x y).1 + (longestMatch x y).2.2 + b.1)
              = (x.drop ((longestMatch x y).1 + (longestMatch x y).2.2)).drop b.1 := by
            rw [List.drop_drop]
          have e2 : y.drop ((longestMatch x y).2.1 + (longestMatch x y).2.2 + b.2.1)
              = (y.drop ((longestMatch x y).2.1 + (longestMatch x y).2.2)).drop b.2.1 := by
            rw [List.drop_drop]
          rw [e1, e2]
          exact hbeq

theorem mbAux_pairwise (fuel : Nat) (x y : List α) :
    List.Pairwise Rb (mbAux fuel x y) := by
  induction fuel generalizing x y with
  | zero => simp [mbAux]
  | succ fuel ih =>
    rw [mbAux_succ]
    by_cases hk : (longestMatch x y).2.2 = 0
    · rw [if_pos hk]
      simp
    · rw [if_neg hk]
      rw [List.pairwise_append]
      refine ⟨ih _ _, ?_, ?_⟩
      · rw [List.pairwise_cons]
        constructor
        · intro q hq
          rcases List.mem_map.mp hq with ⟨b, _, hbq⟩
          subst hbq
          exact ⟨by dsimp only; omega, by dsimp only; omega⟩
        · rw [List.pairwise_map]
          have hpw := ih (x.drop ((longestMatch x y).1 + (longestMatch x y).2.2))
            (y.drop ((longestMatch x y).2.1 + (longestMatch x y).2.2))
          refine hpw.imp ?_
          intro p q hab
          have h1 := hab.1
          have h2 := hab.2
          exact ⟨by dsimp only; omega, by dsimp only; omega⟩
      · intro p hp q hq
        have hpm := mbAux_mem fuel _ _ p hp
        rcases hpm with ⟨_, hpx, hpy, _⟩
        simp only [List.length_take] at hpx hpy
        rcases List.mem_cons.mp hq with hq | hq
        · subst hq
          exact ⟨by dsimp only; omega, by dsimp only; omega⟩
        · rcases List.mem_map.mp hq with ⟨b, _, hbq⟩
          subst hbq
          exact ⟨by dsimp only; omega, by dsimp only; omega⟩

theorem mbAux_self (fuel : Nat) (x : List α) (hf : 1 ≤ fuel) :
    mbAux fuel x x = if x.length = 0 then [] else [(0, 0, x.length)] := by
  cases fuel with
  | zero => omega
  | succ fuel =>
    rw [mbAux_succ, longestMatch_self]
    by_cases hx : x.length = 0
    · rw [if_pos hx, if_pos hx]
    · rw [if_neg hx, if_neg hx]
      have hdx : x.drop ((0, 0, x.length).1 + (0, 0, x.length).2.2) = [] := by
        show x.drop (0 + x.length) = []
        rw [Nat.zero_add]
        exact List.drop_length x
      rw [hdx]
      show mbAux fuel (x.take 0) (x.take 0) ++ _ = _
      rw [List.take_zero, mbAux_left_nil]
      simp

theorem gmb_mem (x y : List α) :
    ∀ p ∈ get_matching_blocks x y,
      p.1 + p.2.2 ≤ x.length ∧ p.2.1 + p.2.2 ≤ y.length ∧
        (x.drop p.1).take p.2.2 = (y.drop p.2.1).take p.2.2 := by
  intro p hp
  rcases List.mem_append.mp hp with hp | hp
  · have h := mbAux_mem _ _ _ p hp
    exact ⟨h.2.1, h.2.2.1, h.2.2.2⟩
  · simp at hp
    subst hp
    simp

theorem gmb_pairwise (x y : List α) : List.Pairwise Rb (get_matching_blocks x y) := by
  unfold get_matching_blocks
  rw [List.pairwise_append]
  refine ⟨mbAux_pairwise _ _ _, by simp, ?_⟩
  intro p hp q hq
  simp at hq
  subst hq
  have h := mbAux_mem _ _ _ p hp
  exact ⟨h.2.1, h.2.2.1⟩

theorem gmb_self (x : List α) :
    get_matching_blocks x x =
      (if x.length = 0 then [] else [(0, 0, x.length)]) ++ [(x.length, x.length, 0)] := by
  unfold get_matching_blocks
  rw [mbAux_self _ _ (by omega)]

/-- The positive blocks all precede the final sentinel. -/
theorem gmb_dropLast (x y : List α) :
    (get_matching_blocks x y).dropLast = mbAux (x.length + y.length + 1) x y := by
  unfold get_matching_blocks
  exact List.dropLast_concat

theorem gmb_getLast (x y : List α) :
    (get_matching_blocks x y).getLast? = some (x.length, y.length, 0) := by
  unfold get_matching_blocks
  exact List.getLast?_concat _

/-! ### Sync regions -/

theorem syncLoop_nil_left (fuel : Nat) (bm : List (Nat × Nat × Nat)) :
    syncLoop fuel [] bm = [] := by
  cases fuel <;> rfl

theorem syncLoop_nil_right (fuel : Nat) (am : List (Nat × Nat × Nat)) :
    syncLoop fuel am [] = [] := by
  cases fuel with
  | zero => rfl
  | succ fuel => cases am <;> rfl

theorem syncLoop_succ (fuel az aj ak bz bj bk : Nat)
    (arest brest : List (Nat × Nat × Nat)) :
    syncLoop (fuel + 1) ((az, aj, ak) :: arest) ((bz, bj, bk) :: brest) =
      if max az bz < min (az + ak) (bz + bk) then
        ⟨max az bz, min (az + ak) (bz + bk), aj + (max az bz - az),
            aj + (min (az + ak) (bz + bk) - az), bj + (max az bz - bz),
            bj + (min (az + ak) (bz + bk) - bz)⟩ ::
          (if az + ak < bz + bk then syncLoop fuel arest ((bz, bj, bk) :: brest)
            else syncLoop fuel ((az, aj, ak) :: arest) brest)
      else
        (if az + ak < bz + bk then syncLoop fuel arest ((bz, bj, bk) :: brest)
          else syncLoop fuel ((az, aj, ak) :: arest) brest) := by
  show (if max az bz < min (az + ak) (bz + bk) then _ else _) = _
  by_cases h : max az bz < min (az + ak) (bz + bk) <;> simp [h]

theorem syncLoop_mem (fuel : Nat) :
    ∀ (am bm : List (Nat × Nat × Nat)), ∀ r ∈ syncLoop fuel am bm,
      ∃ A ∈ am, ∃ B ∈ bm, SrcOK A B r := by
  induction fuel with
  | zero => intro am bm r hr; simp [syncLoop] at hr
  | succ fuel ih =>
    intro am bm r hr
    match am, bm with
    | [], bm => rw [syncLoop_nil_left] at hr; simp at hr
    | _ :: _, [] => rw [syncLoop_nil_right] at hr; simp at hr
    | (az, aj, ak) :: arest, (bz, bj, bk) :: brest =>
      rw [syncLoop_succ] at hr
      have hrest : ∀ r' ∈ (if az + ak < bz + bk then syncLoop fuel arest ((bz, bj, bk) :: brest)
          else syncLoop fuel ((az, aj, ak) :: arest) brest),
          ∃ A ∈ (az, aj, ak) :: arest, ∃ B ∈ (bz, bj, bk) :: brest, SrcOK A B r' := by
        intro r' hr'
        by_cases hadv : az + ak < bz + bk
        · rw [if_pos hadv] at hr'
          obtain ⟨A, hA, B, hB, hs⟩ := ih _ _ r' hr'
          exact ⟨A, List.mem_cons_of_mem _ hA, B, hB, hs⟩
        · rw [if_neg hadv] at hr'
          obtain ⟨A, hA, B, hB, hs⟩ := ih _ _ r' hr'
          exact ⟨A, hA, B, List.mem_cons_of_mem _ hB, hs⟩
      by_cases hlh : max az bz < min (az + ak) (bz + bk)
      · rw [if_pos hlh] at hr
        rcases List.mem_cons.mp hr with hr | hr
        · subst hr
          refine ⟨(az, aj, ak), List.mem_cons_self _ _, (bz, bj, bk),
            List.mem_cons_self _ _, ?_⟩
          unfold SrcOK
          dsimp only
          refine ⟨?_, ?_, hlh, ?_, ?_, rfl, rfl, rfl, rfl⟩ <;> omega
        · exact hrest r hr
      · rw [if_neg hlh] at hr
        exact hrest r hr

theorem syncLoop_pairwise (fuel : Nat) :
    ∀ (am bm : List (Nat × Nat × Nat)), List.Pairwise Rb am → List.Pairwise Rb bm →
      List.Pairwise Rsync (syncLoop fuel am bm) := by
  induction fuel with
  | zero => intro am bm _ _; simp [syncLoop]
  | succ fuel ih =>
    intro am bm ham hbm
    match am, bm with
    | [], bm => rw [syncLoop_nil_left]; exact List.Pairwise.nil
    | _ :: _, [] => rw [syncLoop_nil_right]; exact List.Pairwise.nil
    | (az, aj, ak) :: arest, (bz, bj, bk) :: brest =>
      rw [syncLoop_succ]
      rcases List.pairwise_cons.mp ham with ⟨hamh, hamt⟩
      rcases List.pairwise_cons.mp hbm with ⟨hbmh, hbmt⟩
      have hrestpw : List.Pairwise Rsync
          (if az + ak < bz + bk then syncLoop fuel arest ((bz, bj, bk) :: brest)
            else syncLoop fuel ((az, aj, ak) :: arest) brest) := by
        by_cases hadv : az + ak < bz + bk
        · rw [if_pos hadv]; exact ih _ _ hamt hbm
        · rw [if_neg hadv]; exact ih _ _ ham hbmt
      by_cases hlh : max az bz < min (az + ak) (bz + bk)
      · rw [if_pos hlh]
        rw [List.pairwise_cons]
        refine ⟨?_, hrestpw⟩
        intro r1 hr1
        by_cases hadv : az + ak < bz + bk
        · rw [if_pos hadv] at hr1
          obtain ⟨A, hA, B, hB, hs⟩ := syncLoop_mem fuel _ _ r1 hr1
          have hRbA := hamh A hA
          rcases hRbA with ⟨hRbA1, hRbA2⟩
          rcases hs with ⟨hs1, hs2, hs3, hs4, hs5, hs6, hs7, hs8, hs9⟩
          rcases List.mem_cons.mp hB with hB | hB
          · subst hB
            unfold Rsync
            dsimp only at *
            refine ⟨?_, ?_, ?_⟩ <;> omega
          · have hRbB := hbmh B hB
            rcases hRbB with ⟨hRbB1, hRbB2⟩
            unfold Rsync
            dsimp only at *
            refine ⟨?_, ?_, ?_⟩ <;> omega
        · rw [if_neg hadv] at hr1
          obtain ⟨A, hA, B, hB, hs⟩ := syncLoop_mem fuel _ _ r1 hr1
          have hRbB := hbmh B hB
          rcases hRbB with ⟨hRbB1, hRbB2⟩
          rcases hs with ⟨hs1, hs2, hs3, hs4, hs5, hs6, hs7, hs8, hs9⟩
          rcases List.mem_cons.mp hA with hA | hA
          · subst hA
            unfold Rsync
            dsimp only at *
            refine ⟨?_, ?_, ?_⟩ <;> omega
          · have hRbA := hamh A hA
            rcases hRbA with ⟨hRbA1, hRbA2⟩
            unfold Rsync
            dsimp only at *
            refine ⟨?_, ?_, ?_⟩ <;> omega
      · rw [if_neg hlh]
        exact hrestpw

/-- Every emitted sync region of `find_sync_regions` arises from one block of
each side; the trailing element is the sentinel. -/
theorem find_sync_regions_eq (base a b : List α) :
    find_sync_regions base a b =
      syncLoop (((get_matching_blocks base a).length) + ((get_matching_blocks base b).length))
        (get_matching_blocks base a) (get_matching_blocks base b)
      ++ [⟨base.length, base.length, a.length, a.length, b.length, b.length⟩] := rfl

theorem find_sync_regions_getLast (base a b : List α) :
    (find_sync_regions base a b).getLast? =
      some ⟨base.length, base.length, a.length, a.length, b.length, b.length⟩ := by
  rw [find_sync_regions_eq]
  exact List.getLast?_concat _

theorem find_sync_regions_mem (base a b : List α) :
    ∀ r ∈ find_sync_regions base a b,
      (r.zLo ≤ r.zHi ∧ r.aLo ≤ r.aHi ∧ r.bLo ≤ r.bHi) ∧
        r.zHi ≤ base.length ∧ r.aHi ≤ a.length ∧ r.bHi ≤ b.length ∧
        (r.aHi - r.aLo = r.zHi - r.zLo ∧ r.bHi - r.bLo = r.zHi - r.zLo) ∧
        seg base r.zLo r.zHi = seg a r.aLo r.aHi ∧
        seg base r.zLo r.zHi = seg b r.bLo r.bHi := by
  intro r hr
  rw [find_sync_regions_eq] at hr
  rcases List.mem_append.mp hr with hr | hr
  · obtain ⟨A, hA, B, hB, hs⟩ := syncLoop_mem _ _ _ r hr
    obtain ⟨hAx, hAy, hAeq⟩ := gmb_mem base a A hA
    obtain ⟨hBx, hBy, hBeq⟩ := gmb_mem base b B hB
    rcases hs with ⟨hs1, hs2, hs3, hs4, hs5, hs6, hs7, hs8, hs9⟩
    have hsega : seg base r.zLo r.zHi = seg a r.aLo r.aHi := by
      unfold seg
      have hda : base.drop r.zLo = (base.drop A.1).drop (r.zLo - A.1) := by
        rw [List.drop_drop]
        have : A.1 + (r.zLo - A.1) = r.zLo := by omega
        rw [this]
      have hda2 : a.drop r.aLo = (a.drop A.2.1).drop (r.zLo - A.1) := by
        rw [List.drop_drop]
        have : A.2.1 + (r.zLo - A.1) = r.aLo := by omega
        rw [this]
      have hlen : r.aHi - r.aLo = r.zHi - r.zLo := by omega
      rw [hda, hda2, hlen]
      exact take_window hAeq (by omega)
    have hsegb : seg base r.zLo r.zHi = seg b r.bLo r.bHi := by
      unfold seg
      have hdb : base.drop r.zLo = (base.drop B.1).drop (r.zLo - B.1) := by
        rw [List.drop_drop]
        have : B.1 + (r.zLo - B.1) = r.zLo := by omega
        rw [this]
      have hdb2 : b.drop r.bLo = (b.drop B.2.1).drop (r.zLo - B.1) := by
        rw [List.drop_drop]
        have : B.2.1 + (r.zLo - B.1) = r.bLo := by omega
        rw [this]
      have hlen : r.bHi - r.bLo = r.zHi - r.zLo := by omega
      rw [hdb, hdb2, hlen]
      exact take_window hBeq (by omega)
    exact ⟨⟨by omega, by omega, by omega⟩, by omega, by omega, by omega,
      ⟨by omega, by omega⟩, hsega, hsegb⟩
  · simp at hr
    subst hr
    dsimp only
    refine ⟨⟨Nat.le_refl _, Nat.le_refl _, Nat.le_refl _⟩, Nat.le_refl _, Nat.le_refl _,
      Nat.le_refl _, ⟨by omega, by omega⟩, ?_, ?_⟩ <;> simp [seg]

theorem find_sync_regions_pairwise (base a b : List α) :
    List.Pairwise Rsync (find_sync_regions base a b) := by
  rw [find_sync_regions_eq]
  rw [List.pairwise_append]
  refine ⟨syncLoop_pairwise _ _ _ (gmb_pairwise _ _) (gmb_pairwise _ _),
    List.pairwise_singleton _ _, ?_⟩
  intro r hr s hs
  simp at hs
  subst hs
  obtain ⟨A, hA, B, hB, hs⟩ := syncLoop_mem _ _ _ r hr
  obtain ⟨hAx, hAy, _⟩ := gmb_mem base a A hA
  obtain ⟨hBx, hBy, _⟩ := gmb_mem base b B hB
  rcases hs with ⟨hs1, hs2, hs3, hs4, hs5, hs6, hs7, hs8, hs9⟩
  unfold Rsync
  dsimp only
  refine ⟨?_, ?_, ?_⟩ <;> omega

/-! ### Sync regions in the degenerate configurations -/

theorem diagA_eq_nil {ms : List (Nat × Nat × Nat)} (h : ∀ p ∈ ms, p.2.2 = 0) :
    diagA ms = [] := by
  induction ms with
  | nil => rfl
  | cons p r ih =>
    match p with
    | (i, j, k) =>
      have hk := h (i, j, k) (List.mem_cons_self _ _)
      show (if 0 < k then _ else _) = _
      rw [if_neg (by dsimp only at hk; omega)]
      exact ih (fun q hq => h q (List.mem_cons_of_mem _ hq))

theorem diagS_eq_nil {ms : List (Nat × Nat × Nat)} (h : ∀ p ∈ ms, p.2.2 = 0) :
    diagS ms = [] := by
  induction ms with
  | nil => rfl
  | cons p r ih =>
    match p with
    | (i, j, k) =>
      have hk := h (i, j, k) (List.mem_cons_self _ _)
      show (if 0 < k then _ else _) = _
      rw [if_neg (by dsimp only at hk; omega)]
      exact ih (fun q hq => h q (List.mem_cons_of_mem _ hq))

theorem diagA_mem {ms : List (Nat × Nat × Nat)} :
    ∀ r ∈ diagA ms, r.bLo = r.zLo ∧ r.bHi = r.zHi ∧ r.zLo < r.zHi := by
  induction ms with
  | nil => intro r hr; simp [diagA] at hr
  | cons p rest ih =>
    match p with
    | (i, j, k) =>
      intro r hr
      rw [show diagA ((i, j, k) :: rest) =
          (if 0 < k then ⟨i, i + k, j, j + k, i, i + k⟩ :: diagA rest else diagA rest)
        from rfl] at hr
      by_cases hk : 0 < k
      · rw [if_pos hk] at hr
        rcases List.mem_cons.mp hr with hr | hr
        · subst hr
          exact ⟨rfl, rfl, by dsimp only; omega⟩
        · exact ih r hr
      · rw [if_neg hk] at hr
        exact ih r hr

theorem diagB_mem {ms : List (Nat × Nat × Nat)} :
    ∀ r ∈ diagB ms, r.aLo = r.zLo ∧ r.aHi = r.zHi ∧ r.zLo < r.zHi := by
  induction ms with
  | nil => intro r hr; simp [diagB] at hr
  | cons p rest ih =>
    match p with
    | (i, j, k) =>
      intro r hr
      rw [show diagB ((i, j, k) :: rest) =
          (if 0 < k then ⟨i, i + k, i, i + k, j, j + k⟩ :: diagB rest else diagB rest)
        from rfl] at hr
      by_cases hk : 0 < k
      · rw [if_pos hk] at hr
        rcases List.mem_cons.mp hr with hr | hr
        · subst hr
          exact ⟨rfl, rfl, by dsimp only; omega⟩
        · exact ih r hr
      · rw [if_neg hk] at hr
        exact ih r hr

theorem diagS_mem {ms : List (Nat × Nat × Nat)} :
    ∀ r ∈ diagS ms, r.bLo = r.aLo ∧ r.bHi = r.aHi ∧ r.zLo < r.zHi := by
  induction ms with
  | nil => intro r hr; simp [diagS] at hr
  | cons p rest ih =>
    match p with
    | (i, j, k) =>
      intro r hr
      rw [show diagS ((i, j, k) :: rest) =
          (if 0 < k then ⟨i, i + k, j, j + k, j, j + k⟩ :: diagS rest else diagS rest)
        from rfl] at hr
      by_cases hk : 0 < k
      · rw [if_pos hk] at hr
        rcases List.mem_cons.mp hr with hr | hr
        · subst hr
          exact ⟨rfl, rfl, by dsimp only; omega⟩
        · exact ih r hr
      · rw [if_neg hk] at hr
        exact ih r hr

/-- Lockstep walk against a single full block on the `b` side: every positive
`a`-side block is emitted diagonally. -/
theorem syncLoop_full_right (n m : Nat) (hn : 0 < n) :
    ∀ (am : List (Nat × Nat × Nat)) (fuel : Nat),
      (∀ p ∈ am, p.1 + p.2.2 ≤ n) → List.Pairwise Rb am → am.length + 2 ≤ fuel →
      syncLoop fuel am [(0, 0, n), (n, m, 0)] = diagA am := by
  intro am
  induction am with
  | nil => intro fuel _ _ _; rw [syncLoop_nil_left]; rfl
  | cons p arest ih =>
    match p with
    | (i, j, k) =>
      intro fuel hb hpw hfuel
      simp only [List.length_cons] at hfuel
      have hik : i + k ≤ n := by
        have := hb (i, j, k) (List.mem_cons_self _ _)
        dsimp only at this
        exact this
      have hbt : ∀ p ∈ arest, p.1 + p.2.2 ≤ n :=
        fun q hq => hb q (List.mem_cons_of_mem _ hq)
      rcases List.pairwise_cons.mp hpw with ⟨hph, hpt⟩
      obtain ⟨f, rfl⟩ : ∃ f, fuel = f + 1 := ⟨fuel - 1, by omega⟩
      rw [syncLoop_succ]
      by_cases hk : 0 < k
      · have hcond : max i 0 < min (i + k) (0 + n) := by omega
        rw [if_pos hcond]
        have hreg : (⟨max i 0, min (i + k) (0 + n), j + (max i 0 - i),
            j + (min (i + k) (0 + n) - i), 0 + (max i 0 - 0),
            0 + (min (i + k) (0 + n) - 0)⟩ : SyncRegion)
            = ⟨i, i + k, j, j + k, i, i + k⟩ := by
          simp only [SyncRegion.mk.injEq]
          omega
        rw [hreg]
        rw [show diagA ((i, j, k) :: arest) =
            ⟨i, i + k, j, j + k, i, i + k⟩ :: diagA arest from by
          show (if 0 < k then _ else _) = _
          rw [if_pos hk]]
        congr 1
        by_cases hadv : i + k < 0 + n
        · rw [if_pos hadv]
          exact ih f hbt hpt (by omega)
        · rw [if_neg hadv]
          obtain ⟨f', rfl⟩ : ∃ f', f = f' + 1 := ⟨f - 1, by omega⟩
          rw [syncLoop_succ]
          rw [if_neg (by omega)]
          rw [if_neg (by omega)]
          rw [syncLoop_nil_right]
          refine (diagA_eq_nil ?_).symm
          intro q hq
          have h1 := hph q hq
          have h2 := hbt q hq
          have h11 := h1.1
          dsimp only at h11
          omega
      · have hcond : ¬(max i 0 < min (i + k) (0 + n)) := by omega
        rw [if_neg hcond]
        rw [show diagA ((i, j, k) :: arest) = diagA arest from by
          show (if 0 < k then _ else _) = _
          rw [if_neg hk]]
        by_cases hadv : i + k < 0 + n
        · rw [if_pos hadv]
          exact ih f hbt hpt (by omega)
        · rw [if_neg hadv]
          obtain ⟨f', rfl⟩ : ∃ f', f = f' + 1 := ⟨f - 1, by omega⟩
          rw [syncLoop_succ]
          rw [if_neg (by omega)]
          rw [if_neg (by omega)]
          rw [syncLoop_nil_right]
          refine (diagA_eq_nil ?_).symm
          intro q hq
          have h1 := hph q hq
          have h2 := hbt q hq
          have h11 := h1.1
          dsimp only at h11
          omega

/-- Lockstep walk against a single full block on the `a` side: every positive
`b`-side block is emitted diagonally, the walk always advancing `b`. -/
theorem syncLoop_full_left (n m : Nat) :
    ∀ (bm : List (Nat × Nat × Nat)) (fuel : Nat),
      (∀ p ∈ bm, p.1 + p.2.2 ≤ n) → bm.length + 1 ≤ fuel →
      syncLoop fuel [(0, 0, n), (n, m, 0)] bm = diagB bm := by
  intro bm
  induction bm with
  | nil => intro fuel _ _; rw [syncLoop_nil_right]; rfl
  | cons p brest ih =>
    match p with
    | (i, j, k) =>
      intro fuel hb hfuel
      simp only [List.length_cons] at hfuel
      have hik : i + k ≤ n := by
        have := hb (i, j, k) (List.mem_cons_self _ _)
        dsimp only at this
        exact this
      have hbt : ∀ p ∈ brest, p.1 + p.2.2 ≤ n :=
        fun q hq => hb q (List.mem_cons_of_mem _ hq)
      obtain ⟨f, rfl⟩ : ∃ f, fuel = f + 1 := ⟨fuel - 1, by omega⟩
      rw [syncLoop_succ]
      rw [if_neg (show ¬(0 + n < i + k) by omega)]
      by_cases hk : 0 < k
      · have hcond : max 0 i < min (0 + n) (i + k) := by omega
        rw [if_pos hcond]
        have hreg : (⟨max 0 i, min (0 + n) (i + k), 0 + (max 0 i - 0),
            0 + (min (0 + n) (i + k) - 0), j + (max 0 i - i),
            j + (min (0 + n) (i + k) - i)⟩ : SyncRegion)
            = ⟨i, i + k, i, i + k, j, j + k⟩ := by
          simp only [SyncRegion.mk.injEq]
          omega
        rw [hreg]
        rw [show diagB ((i, j, k) :: brest) =
            ⟨i, i + k, i, i + k, j, j + k⟩ :: diagB brest from by
          show (if 0 < k then _ else _) = _
          rw [if_pos hk]]
        congr 1
        exact ih f hbt (by omega)
      · have hcond : ¬(max 0 i < min (0 + n) (i + k)) := by omega
        rw [if_neg hcond]
        rw [show diagB ((i, j, k) :: brest) = diagB brest from by
          show (if 0 < k then _ else _) = _
          rw [if_neg hk]]
        exact ih f hbt (by omega)

/-- Lockstep walk of a block list against itself: every positive block is
emitted diagonally.  The side condition requires positive blocks followed by a
single zero-length sentinel, which is the shape `get_matching_blocks`
produces. -/
theorem syncLoop_self_aux (ms : List (Nat × Nat × Nat)) :
    (List.Pairwise Rb ms → (∀ p ∈ ms.dropLast, 0 < p.2.2) →
      (∀ p ∈ ms.getLast?, p.2.2 = 0) →
      ∀ fuel, 2 * ms.length ≤ fuel → syncLoop fuel ms ms = diagS ms)
    ∧ (∀ M, List.Pairwise Rb (M :: ms) → (∀ p ∈ (M :: ms).dropLast, 0 < p.2.2) →
        (∀ p ∈ (M :: ms).getLast?, p.2.2 = 0) →
        ∀ fuel, 2 * ms.length + 1 ≤ fuel → syncLoop fuel (M :: ms) ms = diagS ms) := by
  induction ms with
  | nil =>
    constructor
    · intro _ _ _ fuel _
      rw [syncLoop_nil_left]
      rfl
    · intro M _ _ _ fuel _
      rw [syncLoop_nil_right]
      rfl
  | cons M2 rest2 ih =>
    obtain ⟨ih1, ih2⟩ := ih
    have hpart1 : List.Pairwise Rb (M2 :: rest2) →
        (∀ p ∈ (M2 :: rest2).dropLast, 0 < p.2.2) →
        (∀ p ∈ (M2 :: rest2).getLast?, p.2.2 = 0) →
        ∀ fuel, 2 * (M2 :: rest2).length ≤ fuel →
        syncLoop fuel (M2 :: rest2) (M2 :: rest2) = diagS (M2 :: rest2) := by
      intro hpw hpos hlast fuel hfuel
      simp only [List.length_cons] at hfuel
      match M2 with
      | (i2, j2, k2) =>
        obtain ⟨f, rfl⟩ : ∃ f, fuel = f + 1 := ⟨fuel - 1, by omega⟩
        rw [syncLoop_succ]
        rw [if_neg (show ¬(i2 + k2 < i2 + k2) by omega)]
        have hrest : syncLoop f ((i2, j2, k2) :: rest2) rest2 = diagS rest2 :=
          ih2 (i2, j2, k2) hpw hpos hlast f (by omega)
        by_cases hk : 0 < k2
        · have hcond : max i2 i2 < min (i2 + k2) (i2 + k2) := by omega
          rw [if_pos hcond]
          have hreg : (⟨max i2 i2, min (i2 + k2) (i2 + k2), j2 + (max i2 i2 - i2),
              j2 + (min (i2 + k2) (i2 + k2) - i2), j2 + (max i2 i2 - i2),
              j2 + (min (i2 + k2) (i2 + k2) - i2)⟩ : SyncRegion)
              = ⟨i2, i2 + k2, j2, j2 + k2, j2, j2 + k2⟩ := by
            simp only [SyncRegion.mk.injEq]
            omega
          rw [hreg, hrest]
          rw [show diagS ((i2, j2, k2) :: rest2) =
              ⟨i2, i2 + k2, j2, j2 + k2, j2, j2 + k2⟩ :: diagS rest2 from by
            show (if 0 < k2 then _ else _) = _
            rw [if_pos hk]]
        · have hcond : ¬(max i2 i2 < min (i2 + k2) (i2 + k2)) := by omega
          rw [if_neg hcond, hrest]
          rw [show diagS ((i2, j2, k2) :: rest2) = diagS rest2 from by
            show (if 0 < k2 then _ else _) = _
            rw [if_neg hk]]
    refine ⟨hpart1, ?_⟩
    intro M hpw hpos hlast fuel hfuel
    simp only [List.length_cons] at hfuel
    match M, M2 with
    | (i, j, k), (i2, j2, k2) =>
      obtain ⟨f, rfl⟩ : ∃ f, fuel = f + 1 := ⟨fuel - 1, by omega⟩
      rcases List.pairwise_cons.mp hpw with ⟨hph, hpt⟩
      have hRb : i + k ≤ i2 ∧ j + k ≤ j2 := by
        have := hph (i2, j2, k2) (List.mem_cons_self _ _)
        exact ⟨this.1, this.2⟩
      rw [syncLoop_succ]
      rw [if_neg (show ¬(max i i2 < min (i + k) (i2 + k2)) by omega)]
      by_cases hadv : i + k < i2 + k2
      · rw [if_pos hadv]
        refine hpart1 hpt ?_ ?_ f (by simp only [List.length_cons]; omega)
        · intro p hp
          refine hpos p ?_
          rw [List.dropLast_cons_of_ne_nil (List.cons_ne_nil _ _)]
          exact List.mem_cons_of_mem _ hp
        · intro p hp
          refine hlast p ?_
          rw [List.getLast?_cons_cons]
          exact hp
      · rw [if_neg hadv]
        have hk2 : k2 = 0 ∧ i2 ≤ i + k := by omega
        match rest2 with
        | [] =>
          rw [syncLoop_nil_right]
          rw [show diagS [(i2, j2, k2)] = [] from by
            show (if 0 < k2 then _ else _) = _
            rw [if_neg (by omega)]
            rfl]
        | q :: rest3 =>
          exfalso
          have : 0 < k2 := by
            refine hpos (i2, j2, k2) ?_
            rw [List.dropLast_cons_of_ne_nil (List.cons_ne_nil _ _)]
            rw [List.dropLast_cons_of_ne_nil (List.cons_ne_nil _ _)]
            exact List.mem_cons_of_mem _ (List.mem_cons_self _ _)
          omega

theorem find_sync_b_base (base a : List α) :
    find_sync_regions base a base =
      diagA (get_matching_blocks base a)
        ++ [⟨base.length, base.length, a.length, a.length, base.length, base.length⟩] := by
  rw [find_sync_regions_eq]
  congr 1
  by_cases hb : base.length = 0
  · have hbase : base = [] := List.length_eq_zero.mp hb
    subst hbase
    have hga : get_matching_blocks ([] : List α) a = [(0, a.length, 0)] := by
      unfold get_matching_blocks
      rw [mbAux_left_nil]
      simp
    have hgb : get_matching_blocks ([] : List α) [] = [(0, 0, 0)] := by
      unfold get_matching_blocks
      rw [mbAux_left_nil]
      simp
    rw [hga, hgb]
    rw [show ([(0, a.length, 0)] : List (Nat × Nat × Nat)).length
        + ([(0, 0, 0)] : List (Nat × Nat × Nat)).length = 1 + 1 from rfl]
    rw [syncLoop_succ]
    rw [if_neg (by omega)]
    rw [if_neg (by omega)]
    rw [syncLoop_nil_right]
    rw [show diagA [(0, a.length, 0)] = [] from by
      show (if 0 < 0 then _ else _) = _
      rw [if_neg (by omega)]
      rfl]
  · rw [show get_matching_blocks base base
        = [(0, 0, base.length), (base.length, base.length, 0)] from by
      rw [gmb_self, if_neg hb]
      rfl]
    refine syncLoop_full_right base.length base.length (by omega) _ _ ?_
      (gmb_pairwise base a) (by simp)
    intro p hp
    exact (gmb_mem base a p hp).1

theorem find_sync_a_base (base b : List α) :
    find_sync_regions base base b =
      diagB (get_matching_blocks base b)
        ++ [⟨base.length, base.length, base.length, base.length, b.length, b.length⟩] := by
  rw [find_sync_regions_eq]
  congr 1
  by_cases hb : base.length = 0
  · have hbase : base = [] := List.length_eq_zero.mp hb
    subst hbase
    have hga : get_matching_blocks ([] : List α) [] = [(0, 0, 0)] := by
      unfold get_matching_blocks
      rw [mbAux_left_nil]
      simp
    have hgb : get_matching_blocks ([] : List α) b = [(0, b.length, 0)] := by
      unfold get_matching_blocks
      rw [mbAux_left_nil]
      simp
    rw [hga, hgb]
    rw [show ([(0, 0, 0)] : List (Nat × Nat × Nat)).length
        + ([(0, b.length, 0)] : List (Nat × Nat × Nat)).length = 1 + 1 from rfl]
    rw [syncLoop_succ]
    rw [if_neg (by omega)]
    rw [if_neg (by omega)]
    rw [syncLoop_nil_right]
    rw [show diagB [(0, b.length, 0)] = [] from by
      show (if 0 < 0 then _ else _) = _
      rw [if_neg (by omega)]
      rfl]
  · rw [show get_matching_blocks base base
        = [(0, 0, base.length), (base.length, base.length, 0)] from by
      rw [gmb_self, if_neg hb]
      rfl]
    refine syncLoop_full_left base.length base.length _ _ ?_ (by simp; omega)
    intro p hp
    exact (gmb_mem base b p hp).1

theorem find_sync_same (base d : List α) :
    find_sync_regions base d d =
      diagS (get_matching_blocks base d)
        ++ [⟨base.length, base.length, d.length, d.length, d.length, d.length⟩] := by
  rw [find_sync_regions_eq]
  congr 1
  refine (syncLoop_self_aux (get_matching_blocks base d)).1 (gmb_pairwise _ _) ?_ ?_ _
    (by omega)
  · intro p hp
    rw [gmb_dropLast] at hp
    exact (mbAux_mem _ _ _ p hp).1
  · intro p hp
    rw [gmb_getLast] at hp
    simp at hp
    subst hp
    rfl

/-! ### Classified regions: content and concatenation -/

theorem concatMap_append (f : β → List γ) (l1 l2 : List β) :
    concatMap f (l1 ++ l2) = concatMap f l1 ++ concatMap f l2 := by
  induction l1 with
  | nil => rfl
  | cons x l ih => simp [concatMap, ih]

theorem lastAe_concat (l : List SyncRegion) (r : SyncRegion) :
    ∀ d, lastAe (l ++ [r]) d = r.aHi := by
  induction l with
  | nil => intro d; rfl
  | cons s l ih => intro d; exact ih s.aHi

theorem lastBe_concat (l : List SyncRegion) (r : SyncRegion) :
    ∀ d, lastBe (l ++ [r]) d = r.bHi := by
  induction l with
  | nil => intro d; rfl
  | cons s l ih => intro d; exact ih s.bHi

theorem lastAe_ge (sl : List SyncRegion) :
    ∀ d, (∀ r ∈ sl.head?, d ≤ r.aLo) → (∀ r ∈ sl, r.aLo ≤ r.aHi) →
      List.Pairwise Rsync sl → d ≤ lastAe sl d := by
  induction sl with
  | nil => intro d _ _ _; exact Nat.le_refl d
  | cons r rest ih =>
    intro d hh hm hpw
    show d ≤ lastAe rest r.aHi
    rcases List.pairwise_cons.mp hpw with ⟨hph, hpt⟩
    have h1 : d ≤ r.aLo := hh r (by simp)
    have h2 : r.aLo ≤ r.aHi := hm r (List.mem_cons_self _ _)
    have h3 : r.aHi ≤ lastAe rest r.aHi := by
      refine ih r.aHi ?_ (fun r' hr' => hm r' (List.mem_cons_of_mem _ hr')) hpt
      intro r' hr'
      exact (hph r' (List.mem_of_mem_head? hr')).2.1
    omega

theorem lastBe_ge (sl : List SyncRegion) :
    ∀ d, (∀ r ∈ sl.head?, d ≤ r.bLo) → (∀ r ∈ sl, r.bLo ≤ r.bHi) →
      List.Pairwise Rsync sl → d ≤ lastBe sl d := by
  induction sl with
  | nil => intro d _ _ _; exact Nat.le_refl d
  | cons r rest ih =>
    intro d hh hm hpw
    show d ≤ lastBe rest r.bHi
    rcases List.pairwise_cons.mp hpw with ⟨hph, hpt⟩
    have h1 : d ≤ r.bLo := hh r (by simp)
    have h2 : r.bLo ≤ r.bHi := hm r (List.mem_cons_self _ _)
    have h3 : r.bHi ≤ lastBe rest r.bHi := by
      refine ih r.bHi ?_ (fun r' hr' => hm r' (List.mem_cons_of_mem _ hr')) hpt
      intro r' hr'
      exact (hph r' (List.mem_of_mem_head? hr')).2.2
    omega

/-- When the THIS gap equals the base gap, the classifier yields Unchanged or
ChangedByOther. -/
theorem classifyGap_tgbg (base a b : List α) (cp : Bool) (iz zM ia aM ib bM : Nat)
    (h : seg b ib bM = seg base iz zM) :
    classifyGap base a b cp iz zM ia aM ib bM =
      if seg a ia aM = seg base iz zM then
        (if seg base iz zM = [] then [] else [MergeRegion.unchanged iz zM])
      else [MergeRegion.onlyA ia aM] := by
  simp only [classifyGap]
  by_cases hog : seg a ia aM = seg base iz zM
  · rw [if_pos (⟨hog, h⟩ : _ ∧ _), if_pos hog]
  · rw [if_neg (fun hc => hog hc.1), if_pos h, if_neg hog]

/-- When the OTHER gap equals the base gap, the classifier yields Unchanged or
ChangedByThis. -/
theorem classifyGap_ogbg (base a b : List α) (cp : Bool) (iz zM ia aM ib bM : Nat)
    (h : seg a ia aM = seg base iz zM) :
    classifyGap base a b cp iz zM ia aM ib bM =
      if seg b ib bM = seg base iz zM then
        (if seg base iz zM = [] then [] else [MergeRegion.unchanged iz zM])
      else [MergeRegion.onlyB ib bM] := by
  simp only [classifyGap]
  by_cases htg : seg b ib bM = seg base iz zM
  · rw [if_pos (⟨h, htg⟩ : _ ∧ _), if_pos htg]
  · rw [if_neg (fun hc => htg hc.2), if_neg htg, if_pos h, if_neg htg]

/-- When the two derived gaps agree, the classifier yields Unchanged or
ChangedBySameEdit. -/
theorem classifyGap_ogtg (base a b : List α) (cp : Bool) (iz zM ia aM ib bM : Nat)
    (h : seg b ib bM = seg a ia aM) :
    classifyGap base a b cp iz zM ia aM ib bM =
      if seg a ia aM = seg base iz zM then
        (if seg base iz zM = [] then [] else [MergeRegion.unchanged iz zM])
      else [MergeRegion.same ia aM] := by
  simp only [classifyGap]
  by_cases hog : seg a ia aM = seg base iz zM
  · rw [if_pos (⟨hog, h.trans hog⟩ : _ ∧ _), if_pos hog]
  · rw [if_neg (fun hc => hog hc.1), if_neg (fun hc => hog (h ▸ hc)), if_neg hog,
      if_pos h.symm, if_neg hog]

/-- Unfolding equation of the region walk. -/
theorem mergeLoop_cons (base a b : List α) (cp : Bool) (r : SyncRegion)
    (rest : List SyncRegion) (iz ia ib : Nat) :
    mergeLoop base a b cp (r :: rest) iz ia ib =
      classifyGap base a b cp iz r.zLo ia r.aLo ib r.bLo
        ++ (if r.zLo < r.zHi then
              MergeRegion.unchanged r.zLo r.zHi
                :: mergeLoop base a b cp rest r.zHi r.aHi r.bHi
            else mergeLoop base a b cp rest r.zLo r.aLo r.bLo) := rfl

/-- Walking sync regions whose `b` coordinates coincide with their base
coordinates (the shape arising when THIS equals BASE): no conflicts, and the
content is exactly the `a` segment between the initial and final cursor. -/
theorem mergeLoop_b_base (base a : List α) (cp : Bool) :
    ∀ (sl : List SyncRegion) (iz ia : Nat),
      (∀ r ∈ sl, r.bLo = r.zLo ∧ r.bHi = r.zHi ∧
        seg base r.zLo r.zHi = seg a r.aLo r.aHi ∧ r.zLo ≤ r.zHi ∧ r.aLo ≤ r.aHi ∧
        (r.zLo = r.zHi → r.aLo = r.aHi)) →
      List.Pairwise Rsync sl →
      (∀ r0 ∈ sl.head?, iz ≤ r0.zLo ∧ ia ≤ r0.aLo) →
      (∀ g ∈ mergeLoop base a base cp sl iz ia iz, g.isConflict = false) ∧
      concatMap (contentOf base a base) (mergeLoop base a base cp sl iz ia iz)
        = seg a ia (lastAe sl ia) := by
  intro sl
  induction sl with
  | nil =>
    intro iz ia _ _ _
    exact ⟨fun g hg => absurd hg (by simp [mergeLoop]),
      by simp [mergeLoop, concatMap, lastAe, seg_self]⟩
  | cons r rest ih =>
    intro iz ia hmem hpw hcur
    obtain ⟨hb1, hb2, hseq, hzle, hale, hz0⟩ := hmem r (List.mem_cons_self _ _)
    obtain ⟨hiz, hia⟩ := hcur r (by simp)
    rcases List.pairwise_cons.mp hpw with ⟨hph, hpt⟩
    have hmemt := fun r' hr' => hmem r' (List.mem_cons_of_mem _ hr')
    have hgap : classifyGap base a base cp iz r.zLo ia r.aLo iz r.bLo =
        if seg a ia r.aLo = seg base iz r.zLo then
          (if seg base iz r.zLo = [] then [] else [MergeRegion.unchanged iz r.zLo])
        else [MergeRegion.onlyA ia r.aLo] := by
      refine classifyGap_tgbg base a base cp iz r.zLo ia r.aLo iz r.bLo ?_
      rw [hb1]
    have hgapnc : ∀ g ∈ classifyGap base a base cp iz r.zLo ia r.aLo iz r.bLo,
        g.isConflict = false := by
      intro g hg
      rw [hgap] at hg
      by_cases h1 : seg a ia r.aLo = seg base iz r.zLo
      · rw [if_pos h1] at hg
        by_cases h2 : seg base iz r.zLo = []
        · rw [if_pos h2] at hg; simp at hg
        · rw [if_neg h2] at hg
          simp at hg
          subst hg
          rfl
      · rw [if_neg h1] at hg
        simp at hg
        subst hg
        rfl
    have hgapc : concatMap (contentOf base a base)
        (classifyGap base a base cp iz r.zLo ia r.aLo iz r.bLo) = seg a ia r.aLo := by
      rw [hgap]
      by_cases h1 : seg a ia r.aLo = seg base iz r.zLo
      · rw [if_pos h1]
        by_cases h2 : seg base iz r.zLo = []
        · rw [if_pos h2]
          show [] = seg a ia r.aLo
          rw [h1, h2]
        · rw [if_neg h2]
          show seg base iz r.zLo ++ [] = seg a ia r.aLo
          rw [List.append_nil, h1]
      · rw [if_neg h1]
        show seg a ia r.aLo ++ [] = seg a ia r.aLo
        rw [List.append_nil]
    rw [mergeLoop_cons]
    by_cases hlt : r.zLo < r.zHi
    · rw [if_pos hlt]
      have hbc : mergeLoop base a base cp rest r.zHi r.aHi r.bHi
          = mergeLoop base a base cp rest r.zHi r.aHi r.zHi := by rw [hb2]
      have hih := ih r.zHi r.aHi hmemt hpt
        (fun r' hr' => ⟨(hph r' (List.mem_of_mem_head? hr')).1,
          (hph r' (List.mem_of_mem_head? hr')).2.1⟩)
      constructor
      · intro g hg
        rcases List.mem_append.mp hg with hg | hg
        · exact hgapnc g hg
        · rcases List.mem_cons.mp hg with hg | hg
          · subst hg; rfl
          · rw [hbc] at hg
            exact hih.1 g hg
      · rw [concatMap_append, hgapc]
        show seg a ia r.aLo ++ (seg base r.zLo r.zHi
            ++ concatMap (contentOf base a base)
                (mergeLoop base a base cp rest r.zHi r.aHi r.bHi))
          = seg a ia (lastAe rest r.aHi)
        rw [hbc, hih.2, hseq]
        have hL : r.aHi ≤ lastAe rest r.aHi := by
          refine lastAe_ge rest r.aHi ?_
            (fun r' hr' => (hmemt r' hr').2.2.2.2.1) hpt
          intro r' hr'
          exact (hph r' (List.mem_of_mem_head? hr')).2.1
        rw [seg_append a hale hL, seg_append a hia (Nat.le_trans hale hL)]
    · rw [if_neg hlt]
      have hz : r.zLo = r.zHi := by omega
      have haz : r.aLo = r.aHi := hz0 hz
      have hbc : mergeLoop base a base cp rest r.zLo r.aLo r.bLo
          = mergeLoop base a base cp rest r.zLo r.aLo r.zLo := by rw [hb1]
      have hcur2 : ∀ r' ∈ rest.head?, r.zLo ≤ r'.zLo ∧ r.aLo ≤ r'.aLo := by
        intro r' hr'
        have h := hph r' (List.mem_of_mem_head? hr')
        exact ⟨by have := h.1; omega, by have := h.2.1; omega⟩
      have hih := ih r.zLo r.aLo hmemt hpt hcur2
      constructor
      · intro g hg
        rcases List.mem_append.mp hg with hg | hg
        · exact hgapnc g hg
        · rw [hbc] at hg
          exact hih.1 g hg
      · rw [concatMap_append, hgapc, hbc, hih.2]
        show seg a ia r.aLo ++ seg a r.aLo (lastAe rest r.aLo)
          = seg a ia (lastAe rest r.aHi)
        rw [← haz]
        have hL : r.aLo ≤ lastAe rest r.aLo := by
          refine lastAe_ge rest r.aLo ?_
            (fun r' hr' => (hmemt r' hr').2.2.2.2.1) hpt
          intro r' hr'
          have := (hph r' (List.mem_of_mem_head? hr')).2.1
          omega
        rw [seg_append a hia hL]

/-- Walking sync regions whose `a` coordinates coincide with their base
coordinates (the shape arising when OTHER equals BASE): no conflicts, and the
content is exactly the `b` segment between the initial and final cursor. -/
theorem mergeLoop_a_base (base b : List α) (cp : Bool) :
    ∀ (sl : List SyncRegion) (iz ib : Nat),
      (∀ r ∈ sl, r.aLo = r.zLo ∧ r.aHi = r.zHi ∧
        seg base r.zLo r.zHi = seg b r.bLo r.bHi ∧ r.zLo ≤ r.zHi ∧ r.bLo ≤ r.bHi ∧
        (r.zLo = r.zHi → r.bLo = r.bHi)) →
      List.Pairwise Rsync sl →
      (∀ r0 ∈ sl.head?, iz ≤ r0.zLo ∧ ib ≤ r0.bLo) →
      (∀ g ∈ mergeLoop base base b cp sl iz iz ib, g.isConflict = false) ∧
      concatMap (contentOf base base b) (mergeLoop base base b cp sl iz iz ib)
        = seg b ib (lastBe sl ib) := by
  intro sl
  induction sl with
  | nil =>
    intro iz ib _ _ _
    exact ⟨fun g hg => absurd hg (by simp [mergeLoop]),
      by simp [mergeLoop, concatMap, lastBe, seg_self]⟩
  | cons r rest ih =>
    intro iz ib hmem hpw hcur
    obtain ⟨ha1, ha2, hseq, hzle, hble, hz0⟩ := hmem r (List.mem_cons_self _ _)
    obtain ⟨hiz, hib⟩ := hcur r (by simp)
    rcases List.pairwise_cons.mp hpw with ⟨hph, hpt⟩
    have hmemt := fun r' hr' => hmem r' (List.mem_cons_of_mem _ hr')
    have hgap : classifyGap base base b cp iz r.zLo iz r.aLo ib r.bLo =
        if seg b ib r.bLo = seg base iz r.zLo then
          (if seg base iz r.zLo = [] then [] else [MergeRegion.unchanged iz r.zLo])
        else [MergeRegion.onlyB ib r.bLo] := by
      refine classifyGap_ogbg base base b cp iz r.zLo iz r.aLo ib r.bLo ?_
      rw [ha1]
    have hgapnc : ∀ g ∈ classifyGap base base b cp iz r.zLo iz r.aLo ib r.bLo,
        g.isConflict = false := by
      intro g hg
      rw [hgap] at hg
      by_cases h1 : seg b ib r.bLo = seg base iz r.zLo
      · rw [if_pos h1] at hg
        by_cases h2 : seg base iz r.zLo = []
        · rw [if_pos h2] at hg; simp at hg
        · rw [if_neg h2] at hg
          simp at hg
          subst hg
          rfl
      · rw [if_neg h1] at hg
        simp at hg
        subst hg
        rfl
    have hgapc : concatMap (contentOf base base b)
        (classifyGap base base b cp iz r.zLo iz r.aLo ib r.bLo) = seg b ib r.bLo := by
      rw [hgap]
      by_cases h1 : seg b ib r.bLo = seg base iz r.zLo
      · rw [if_pos h1]
        by_cases h2 : seg base iz r.zLo = []
        · rw [if_pos h2]
          show [] = seg b ib r.bLo
          rw [h1, h2]
        · rw [if_neg h2]
          show seg base iz r.zLo ++ [] = seg b ib r.bLo
          rw [List.append_nil, h1]
      · rw [if_neg h1]
        show seg b ib r.bLo ++ [] = seg b ib r.bLo
        rw [List.append_nil]
    rw [mergeLoop_cons]
    by_cases hlt : r.zLo < r.zHi
    · rw [if_pos hlt]
      have hbc : mergeLoop base base b cp rest r.zHi r.aHi r.bHi
          = mergeLoop base base b cp rest r.zHi r.zHi r.bHi := by rw [ha2]
      have hih := ih r.zHi r.bHi hmemt hpt
        (fun r' hr' => ⟨(hph r' (List.mem_of_mem_head? hr')).1,
          (hph r' (List.mem_of_mem_head? hr')).2.2⟩)
      constructor
      · intro g hg
        rcases List.mem_append.mp hg with hg | hg
        · exact hgapnc g hg
        · rcases List.mem_cons.mp hg with hg | hg
          · subst hg; rfl
          · rw [hbc] at hg
            exact hih.1 g hg
      · rw [concatMap_append, hgapc]
        show seg b ib r.bLo ++ (seg base r.zLo r.zHi
            ++ concatMap (contentOf base base b)
                (mergeLoop base base b cp rest r.zHi r.aHi r.bHi))
          = seg b ib (lastBe rest r.bHi)
        rw [hbc, hih.2, hseq]
        have hL : r.bHi ≤ lastBe rest r.bHi := by
          refine lastBe_ge rest r.bHi ?_
            (fun r' hr' => (hmemt r' hr').2.2.2.2.1) hpt
          intro r' hr'
          exact (hph r' (List.mem_of_mem_head? hr')).2.2
        rw [seg_append b hble hL, seg_append b hib (Nat.le_trans hble hL)]
    · rw [if_neg hlt]
      have hz : r.zLo = r.zHi := by omega
      have hbz : r.bLo = r.bHi := hz0 hz
      have hbc : mergeLoop base base b cp rest r.zLo r.aLo r.bLo
          = mergeLoop base base b cp rest r.zLo r.zLo r.bLo := by rw [ha1]
      have hcur2 : ∀ r' ∈ rest.head?, r.zLo ≤ r'.zLo ∧ r.bLo ≤ r'.bLo := by
        intro r' hr'
        have h := hph r' (List.mem_of_mem_head? hr')
        exact ⟨by have := h.1; omega, by have := h.2.2; omega⟩
      have hih := ih r.zLo r.bLo hmemt hpt hcur2
      constructor
      · intro g hg
        rcases List.mem_append.mp hg with hg | hg
        · exact hgapnc g hg
        · rw [hbc] at hg
          exact hih.1 g hg
      · rw [concatMap_append, hgapc, hbc, hih.2]
        show seg b ib r.bLo ++ seg b r.bLo (lastBe rest r.bLo)
          = seg b ib (lastBe rest r.bHi)
        rw [← hbz]
        have hL : r.bLo ≤ lastBe rest r.bLo := by
          refine lastBe_ge rest r.bLo ?_
            (fun r' hr' => (hmemt r' hr').2.2.2.2.1) hpt
          intro r' hr'
          have := (hph r' (List.mem_of_mem_head? hr')).2.2
          omega
        rw [seg_append b hib hL]

/-- Walking sync regions whose two derived coordinates coincide (the shape
arising when the two derived sequences are identical): no conflicts, and the
content is exactly the `a` segment between the initial and final cursor. -/
theorem mergeLoop_a_eq_b (base a : List α) (cp : Bool) :
    ∀ (sl : List SyncRegion) (iz ia : Nat),
      (∀ r ∈ sl, r.bLo = r.aLo ∧ r.bHi = r.aHi ∧
        seg base r.zLo r.zHi = seg a r.aLo r.aHi ∧ r.zLo ≤ r.zHi ∧ r.aLo ≤ r.aHi ∧
        (r.zLo = r.zHi → r.aLo = r.aHi)) →
      List.Pairwise Rsync sl →
      (∀ r0 ∈ sl.head?, iz ≤ r0.zLo ∧ ia ≤ r0.aLo) →
      (∀ g ∈ mergeLoop base a a cp sl iz ia ia, g.isConflict = false) ∧
      concatMap (contentOf base a a) (mergeLoop base a a cp sl iz ia ia)
        = seg a ia (lastAe sl ia) := by
  intro sl
  induction sl with
  | nil =>
    intro iz ia _ _ _
    exact ⟨fun g hg => absurd hg (by simp [mergeLoop]),
      by simp [mergeLoop, concatMap, lastAe, seg_self]⟩
  | cons r rest ih =>
    intro iz ia hmem hpw hcur
    obtain ⟨hb1, hb2, hseq, hzle, hale, hz0⟩ := hmem r (List.mem_cons_self _ _)
    obtain ⟨hiz, hia⟩ := hcur r (by simp)
    rcases List.pairwise_cons.mp hpw with ⟨hph, hpt⟩
    have hmemt := fun r' hr' => hmem r' (List.mem_cons_of_mem _ hr')
    have hgap : classifyGap base a a cp iz r.zLo ia r.aLo ia r.bLo =
        if seg a ia r.aLo = seg base iz r.zLo then
          (if seg base iz r.zLo = [] then [] else [MergeRegion.unchanged iz r.zLo])
        else [MergeRegion.same ia r.aLo] := by
      refine classifyGap_ogtg base a a cp iz r.zLo ia r.aLo ia r.bLo ?_
      rw [hb1]
    have hgapnc : ∀ g ∈ classifyGap base a a cp iz r.zLo ia r.aLo ia r.bLo,
        g.isConflict = false := by
      intro g hg
      rw [hgap] at hg
      by_cases h1 : seg a ia r.aLo = seg base iz r.zLo
      · rw [if_pos h1] at hg
        by_cases h2 : seg base iz r.zLo = []
        · rw [if_pos h2] at hg; simp at hg
        · rw [if_neg h2] at hg
          simp at hg
          subst hg
          rfl
      · rw [if_neg h1] at hg
        simp at hg
        subst hg
        rfl
    have hgapc : concatMap (contentOf base a a)
        (classifyGap base a a cp iz r.zLo ia r.aLo ia r.bLo) = seg a ia r.aLo := by
      rw [hgap]
      by_cases h1 : seg a ia r.aLo = seg base iz r.zLo
      · rw [if_pos h1]
        by_cases h2 : seg base iz r.zLo = []
        · rw [if_pos h2]
          show [] = seg a ia r.aLo
          rw [h1, h2]
        · rw [if_neg h2]
          show seg base iz r.zLo ++ [] = seg a ia r.aLo
          rw [List.append_nil, h1]
      · rw [if_neg h1]
        show seg a ia r.aLo ++ [] = seg a ia r.aLo
        rw [List.append_nil]
    rw [mergeLoop_cons]
    by_cases hlt : r.zLo < r.zHi
    · rw [if_pos hlt]
      have hbc : mergeLoop base a a cp rest r.zHi r.aHi r.bHi
          = mergeLoop base a a cp rest r.zHi r.aHi r.aHi := by rw [hb2]
      have hih := ih r.zHi r.aHi hmemt hpt
        (fun r' hr' => ⟨(hph r' (List.mem_of_mem_head? hr')).1,
          (hph r' (List.mem_of_mem_head? hr')).2.1⟩)
      constructor
      · intro g hg
        rcases List.mem_append.mp hg with hg | hg
        · exact hgapnc g hg
        · rcases List.mem_cons.mp hg with hg | hg
          · subst hg; rfl
          · rw [hbc] at hg
            exact hih.1 g hg
      · rw [concatMap_append, hgapc]
        show seg a ia r.aLo ++ (seg base r.zLo r.zHi
            ++ concatMap (contentOf base a a)
                (mergeLoop base a a cp rest r.zHi r.aHi r.bHi))
          = seg a ia (lastAe rest r.aHi)
        rw [hbc, hih.2, hseq]
        have hL : r.aHi ≤ lastAe rest r.aHi := by
          refine lastAe_ge rest r.aHi ?_
            (fun r' hr' => (hmemt r' hr').2.2.2.2.1) hpt
          intro r' hr'
          exact (hph r' (List.mem_of_mem_head? hr')).2.1
        rw [seg_append a hale hL, seg_append a hia (Nat.le_trans hale hL)]
    · rw [if_neg hlt]
      have hz : r.zLo = r.zHi := by omega
      have haz : r.aLo = r.aHi := hz0 hz
      have hbc : mergeLoop base a a cp rest r.zLo r.aLo r.bLo
          = mergeLoop base a a cp rest r.zLo r.aLo r.aLo := by rw [hb1]
      have hcur2 : ∀ r' ∈ rest.head?, r.zLo ≤ r'.zLo ∧ r.aLo ≤ r'.aLo := by
        intro r' hr'
        have h := hph r' (List.mem_of_mem_head? hr')
        exact ⟨by have := h.1; omega, by have := h.2.1; omega⟩
      have hih := ih r.zLo r.aLo hmemt hpt hcur2
      constructor
      · intro g hg
        rcases List.mem_append.mp hg with hg | hg
        · exact hgapnc g hg
        · rw [hbc] at hg
          exact hih.1 g hg
      · rw [concatMap_append, hgapc, hbc, hih.2]
        show seg a ia r.aLo ++ seg a r.aLo (lastAe rest r.aLo)
          = seg a ia (lastAe rest r.aHi)
        rw [← haz]
        have hL : r.aLo ≤ lastAe rest r.aLo := by
          refine lastAe_ge rest r.aLo ?_
            (fun r' hr' => (hmemt r' hr').2.2.2.2.1) hpt
          intro r' hr'
          have := (hph r' (List.mem_of_mem_head? hr')).2.1
          omega
        rw [seg_append a hia hL]

/-- A one-sided merge (THIS equal to BASE): no conflicts and the classified
regions spell out OTHER exactly. -/
theorem merge_regions_b_base (base a : List α) (cp : Bool) :
    (∀ g ∈ merge_regions base a base cp, g.isConflict = false) ∧
    concatMap (contentOf base a base) (merge_regions base a base cp) = a := by
  have hchar := find_sync_b_base base a
  have hmem' : ∀ r ∈ find_sync_regions base a base,
      r.bLo = r.zLo ∧ r.bHi = r.zHi ∧
        seg base r.zLo r.zHi = seg a r.aLo r.aHi ∧ r.zLo ≤ r.zHi ∧ r.aLo ≤ r.aHi ∧
        (r.zLo = r.zHi → r.aLo = r.aHi) := by
    intro r hr
    have hall := find_sync_regions_mem base a base r hr
    rw [hchar] at hr
    rcases List.mem_append.mp hr with hr | hr
    · have hd := diagA_mem r hr
      exact ⟨hd.1, hd.2.1, hall.2.2.2.2.2.1, hall.1.1, hall.1.2.1,
        fun hz => absurd hz (Nat.ne_of_lt hd.2.2)⟩
    · simp at hr
      subst hr
      exact ⟨rfl, rfl, hall.2.2.2.2.2.1, Nat.le_refl _, Nat.le_refl _, fun _ => rfl⟩
  have h := mergeLoop_b_base base a cp (find_sync_regions base a base) 0 0 hmem'
    (find_sync_regions_pairwise base a base)
    (fun r0 _ => ⟨Nat.zero_le _, Nat.zero_le _⟩)
  refine ⟨h.1, ?_⟩
  rw [show merge_regions base a base cp
      = mergeLoop base a base cp (find_sync_regions base a base) 0 0 0 from rfl]
  rw [h.2, hchar, lastAe_concat]
  exact seg_zero_length a

/-- A one-sided merge (OTHER equal to BASE): no conflicts and the classified
regions spell out THIS exactly. -/
theorem merge_regions_a_base (base b : List α) (cp : Bool) :
    (∀ g ∈ merge_regions base base b cp, g.isConflict = false) ∧
    concatMap (contentOf base base b) (merge_regions base base b cp) = b := by
  have hchar := find_sync_a_base base b
  have hmem' : ∀ r ∈ find_sync_regions base base b,
      r.aLo = r.zLo ∧ r.aHi = r.zHi ∧
        seg base r.zLo r.zHi = seg b r.bLo r.bHi ∧ r.zLo ≤ r.zHi ∧ r.bLo ≤ r.bHi ∧
        (r.zLo = r.zHi → r.bLo = r.bHi) := by
    intro r hr
    have hall := find_sync_regions_mem base base b r hr
    rw [hchar] at hr
    rcases List.mem_append.mp hr with hr | hr
    · have hd := diagB_mem r hr
      exact ⟨hd.1, hd.2.1, hall.2.2.2.2.2.2, hall.1.1, hall.1.2.2,
        fun hz => absurd hz (Nat.ne_of_lt hd.2.2)⟩
    · simp at hr
      subst hr
      exact ⟨rfl, rfl, hall.2.2.2.2.2.2, Nat.le_refl _, Nat.le_refl _, fun _ => rfl⟩
  have h := mergeLoop_a_base base b cp (find_sync_regions base base b) 0 0 hmem'
    (find_sync_regions_pairwise base base b)
    (fun r0 _ => ⟨Nat.zero_le _, Nat.zero_le _⟩)
  refine ⟨h.1, ?_⟩
  rw [show merge_regions base base b cp
      = mergeLoop base base b cp (find_sync_regions base base b) 0 0 0 from rfl]
  rw [h.2, hchar, lastBe_concat]
  exact seg_zero_length b

/-- A merge of two identical derived sides: no conflicts and the classified
regions spell out that side exactly once. -/
theorem merge_regions_same (base d : List α) (cp : Bool) :
    (∀ g ∈ merge_regions base d d cp, g.isConflict = false) ∧
    concatMap (contentOf base d d) (merge_regions base d d cp) = d := by
  have hchar := find_sync_same base d
  have hmem' : ∀ r ∈ find_sync_regions base d d,
      r.bLo = r.aLo ∧ r.bHi = r.aHi ∧
        seg base r.zLo r.zHi = seg d r.aLo r.aHi ∧ r.zLo ≤ r.zHi ∧ r.aLo ≤ r.aHi ∧
        (r.zLo = r.zHi → r.aLo = r.aHi) := by
    intro r hr
    have hall := find_sync_regions_mem base d d r hr
    rw [hchar] at hr
    rcases List.mem_append.mp hr with hr | hr
    · have hd := diagS_mem r hr
      exact ⟨hd.1, hd.2.1, hall.2.2.2.2.2.1, hall.1.1, hall.1.2.1,
        fun hz => absurd hz (Nat.ne_of_lt hd.2.2)⟩
    · simp at hr
      subst hr
      exact ⟨rfl, rfl, hall.2.2.2.2.2.1, Nat.le_refl _, Nat.le_refl _, fun _ => rfl⟩
  have h := mergeLoop_a_eq_b base d cp (find_sync_regions base d d) 0 0 hmem'
    (find_sync_regions_pairwise base d d)
    (fun r0 _ => ⟨Nat.zero_le _, Nat.zero_le _⟩)
  refine ⟨h.1, ?_⟩
  rw [show merge_regions base d d cp
      = mergeLoop base d d cp (find_sync_regions base d d) 0 0 0 from rfl]
  rw [h.2, hchar, lastAe_concat]
  exact seg_zero_length d

/-! ### Rendering -/

/-- On conflict-free region lists the renderer emits exactly the regions'
content. -/
theorem render_eq_content (base a b : List String) (sL mL eL : String)
    (bL : Option String) (regs : List MergeRegion)
    (h : ∀ g ∈ regs, g.isConflict = false) :
    concatMap (renderRegion base a b sL mL eL bL) regs
      = concatMap (contentOf base a b) regs := by
  induction regs with
  | nil => rfl
  | cons g regs ih =>
    have hg := h g (List.mem_cons_self _ _)
    have ht := ih (fun g' hg' => h g' (List.mem_cons_of_mem _ hg'))
    show renderRegion base a b sL mL eL bL g ++ _ = contentOf base a b g ++ _
    rw [ht]
    congr 1
    cases g with
    | unchanged lo hi => rfl
    | same lo hi => rfl
    | onlyA lo hi => rfl
    | onlyB lo hi => rfl
    | conflict z al ah bl bh => simp [MergeRegion.isConflict] at hg

/-- Without a base marker and without reprocessing, `merge_lines` renders the
classified regions with the label-suffixed markers carrying the detected line
ending. -/
theorem merge_lines_eq_render (base a b : List String) (nameA nameB : Option String)
    (sm mm em : String) (cp : Bool) :
    merge_lines base a b nameA nameB sm mm em none false cp
      = Except.ok (concatMap (renderRegion base a b
          ((match nameA with | some nm => sm ++ " " ++ nm | none => sm) ++ detectNewline a)
          (mm ++ detectNewline a)
          ((match nameB with | some nm => em ++ " " ++ nm | none => em) ++ detectNewline a)
          none)
          (merge_regions base a b cp)) := rfl

/-! ### find_unconflicted mirrors the sync walk -/

theorem uncLoop_nil_left (fuel : Nat) (bm : List (Nat × Nat × Nat)) :
    uncLoop fuel [] bm = [] := by
  cases fuel <;> rfl

theorem uncLoop_nil_right (fuel : Nat) (am : List (Nat × Nat × Nat)) :
    uncLoop fuel am [] = [] := by
  cases fuel with
  | zero => rfl
  | succ fuel => cases am <;> rfl

theorem uncLoop_succ (fuel az aj ak bz bj bk : Nat)
    (arest brest : List (Nat × Nat × Nat)) :
    uncLoop (fuel + 1) ((az, aj, ak) :: arest) ((bz, bj, bk) :: brest) =
      if max az bz < min (az + ak) (bz + bk) then
        (max az bz, min (az + ak) (bz + bk)) ::
          (if az + ak < bz + bk then uncLoop fuel arest ((bz, bj, bk) :: brest)
            else uncLoop fuel ((az, aj, ak) :: arest) brest)
      else
        (if az + ak < bz + bk then uncLoop fuel arest ((bz, bj, bk) :: brest)
          else uncLoop fuel ((az, aj, ak) :: arest) brest) := by
  show (if max az bz < min (az + ak) (bz + bk) then _ else _) = _
  by_cases h : max az bz < min (az + ak) (bz + bk) <;> simp [h]

/-- The unconflicted-span walk is the sync-region walk restricted to base
coordinates. -/
theorem uncLoop_eq_syncLoop (fuel : Nat) :
    ∀ (am bm : List (Nat × Nat × Nat)),
      uncLoop fuel am bm = (syncLoop fuel am bm).map (fun r => (r.zLo, r.zHi)) := by
  induction fuel with
  | zero => intro am bm; simp [uncLoop, syncLoop]
  | succ fuel ih =>
    intro am bm
    match am, bm with
    | [], bm => rw [uncLoop_nil_left, syncLoop_nil_left]; rfl
    | _ :: _, [] => rw [uncLoop_nil_right, syncLoop_nil_right]; rfl
    | (az, aj, ak) :: arest, (bz, bj, bk) :: brest =>
      rw [uncLoop_succ, syncLoop_succ]
      by_cases hlh : max az bz < min (az + ak) (bz + bk)
      · rw [if_pos hlh, if_pos hlh]
        rw [List.map_cons]
        by_cases hadv : az + ak < bz + bk
        · rw [if_pos hadv, if_pos hadv, ih]
        · rw [if_neg hadv, if_neg hadv, ih]
      · rw [if_neg hlh, if_neg hlh]
        by_cases hadv : az + ak < bz + bk
        · rw [if_pos hadv, if_pos hadv, ih]
        · rw [if_neg hadv, if_neg hadv, ih]

theorem find_unconflicted_eq (base a b : List α) :
    find_unconflicted base a b
      = (find_sync_regions base a b).dropLast.map (fun r => (r.zLo, r.zHi)) := by
  show uncLoop _ _ _ = _
  rw [uncLoop_eq_syncLoop]
  rw [show (find_sync_regions base a b).dropLast
      = syncLoop ((get_matching_blocks base a).length + (get_matching_blocks base b).length)
          (get_matching_blocks base a) (get_matching_blocks base b) from by
    rw [find_sync_regions_eq]
    exact List.dropLast_concat]

/-! ### Reprocessing: frame and confinement -/

/-- Every region the conflict walk emits is a `same` run or a base-less
conflict confined to the original conflict's two spans. -/
theorem rpWalk_spec (ia aM ib bM : Nat) (hwa : ia ≤ aM) (hwb : ib ≤ bM) :
    ∀ (ms : List (Nat × Nat × Nat)),
      (∀ p ∈ ms, p.1 + p.2.2 ≤ aM - ia ∧ p.2.1 + p.2.2 ≤ bM - ib) →
      List.Pairwise Rb ms →
      ∀ nextA nextB, ia ≤ nextA → ib ≤ nextB → nextA ≤ aM → nextB ≤ bM →
        (∀ p ∈ ms.head?, nextA ≤ ia + p.1 ∧ nextB ≤ ib + p.2.1) →
        ∀ g ∈ rpWalk ia aM ib bM ms nextA nextB,
          (∃ s e, g = MergeRegion.same s e ∧ ia ≤ s ∧ s ≤ e ∧ e ≤ aM) ∨
          (∃ na ra nb rb, g = MergeRegion.conflict none na ra nb rb ∧
            ia ≤ na ∧ na ≤ ra ∧ ra ≤ aM ∧ ib ≤ nb ∧ nb ≤ rb ∧ rb ≤ bM) := by
  intro ms
  induction ms with
  | nil =>
    intro _ _ nextA nextB h1 h2 h3 h4 _ g hg
    replace hg : g ∈ mismatchRegion nextA aM nextB bM := hg
    unfold mismatchRegion at hg
    by_cases hc : nextA < aM ∨ nextB < bM
    · rw [if_pos hc] at hg
      simp at hg
      subst hg
      exact Or.inr ⟨nextA, aM, nextB, bM, rfl, h1, h3, Nat.le_refl _, h2, h4, Nat.le_refl _⟩
    · rw [if_neg hc] at hg
      simp at hg
  | cons p rest ih =>
    match p with
    | (ri, rj, len) =>
      intro hb hpw nextA nextB h1 h2 h3 h4 hhead g hg
      have hbp := hb (ri, rj, len) (List.mem_cons_self _ _)
      dsimp only at hbp
      have hbt := fun q hq => hb q (List.mem_cons_of_mem _ hq)
      rcases List.pairwise_cons.mp hpw with ⟨hph, hpt⟩
      have hh := hhead (ri, rj, len) (by simp)
      dsimp only at hh
      replace hg : g ∈ mismatchRegion nextA (ia + ri) nextB (ib + rj)
          ++ MergeRegion.same (ia + ri) (ia + ri + len)
            :: rpWalk ia aM ib bM rest (ia + ri + len) (ib + rj + len) := hg
      rcases List.mem_append.mp hg with hg | hg
      · unfold mismatchRegion at hg
        by_cases hc : nextA < ia + ri ∨ nextB < ib + rj
        · rw [if_pos hc] at hg
          simp at hg
          subst hg
          exact Or.inr ⟨nextA, ia + ri, nextB, ib + rj, rfl, h1, hh.1, by omega,
            h2, hh.2, by omega⟩
        · rw [if_neg hc] at hg
          simp at hg
      · rcases List.mem_cons.mp hg with hg | hg
        · subst hg
          exact Or.inl ⟨ia + ri, ia + ri + len, rfl, by omega, by omega, by omega⟩
        · refine ih hbt hpt (ia + ri + len) (ib + rj + len)
            (by omega) (by omega) (by omega) (by omega) ?_ g hg
          intro q hq
          have hq' := hph q (List.mem_of_mem_head? hq)
          rcases hq' with ⟨hq1, hq2⟩
          dsimp only at hq1 hq2
          exact ⟨by omega, by omega⟩

/-- Frame and confinement of reprocessing: every non-conflict region passes
through verbatim, and each conflict is replaced by common runs and smaller
base-less conflicts lying inside the original conflict's spans. -/
theorem reprocessRegions_frame (a b : List α) (regs : List MergeRegion)
    (hwf : ∀ r ∈ regs, ∀ z al ah bl bh, r = MergeRegion.conflict z al ah bl bh →
      al ≤ ah ∧ bl ≤ bh) :
    ∃ F : MergeRegion → List MergeRegion,
      reprocessRegions a b regs = concatMap F regs ∧
      (∀ r, r.isConflict = false → F r = [r]) ∧
      (∀ r ∈ regs, ∀ z al ah bl bh, r = MergeRegion.conflict z al ah bl bh →
        ∀ g ∈ F r,
          (∃ s e, g = MergeRegion.same s e ∧ al ≤ s ∧ s ≤ e ∧ e ≤ ah) ∨
          (∃ na ra nb rb, g = MergeRegion.conflict none na ra nb rb ∧
            al ≤ na ∧ na ≤ ra ∧ ra ≤ ah ∧ bl ≤ nb ∧ nb ≤ rb ∧ rb ≤ bh)) := by
  refine ⟨fun r => match r with
    | MergeRegion.conflict _ ia aM ib bM =>
        rpWalk ia aM ib bM
          ((get_matching_blocks (seg a ia aM) (seg b ib bM)).dropLast) ia ib
    | r => [r], rfl, ?_, ?_⟩
  · intro r hr
    cases r with
    | unchanged lo hi => rfl
    | same lo hi => rfl
    | onlyA lo hi => rfl
    | onlyB lo hi => rfl
    | conflict z al ah bl bh => simp [MergeRegion.isConflict] at hr
  · intro r hr z al ah bl bh hform g hg
    subst hform
    obtain ⟨hwa, hwb⟩ := hwf _ hr _ _ _ _ _ rfl
    refine rpWalk_spec al ah bl bh hwa hwb _ ?_ ?_ al bl (Nat.le_refl _)
      (Nat.le_refl _) hwa hwb (fun q _ => ⟨by omega, by omega⟩) g hg
    · intro q hq
      rw [gmb_dropLast] at hq
      have h := mbAux_mem _ _ _ q hq
      have h1 := h.2.1
      have h2 := h.2.2.1
      have e1 := seg_length_le a al ah
      have e2 := seg_length_le b bl bh
      constructor <;> omega
    · rw [gmb_dropLast]
      exact mbAux_pairwise _ _ _

/-! ### Claims -/

/-- C1: when exactly one of OTHER/THIS differs from BASE and the other equals
BASE, `merge_lines` classifies no gap as a conflict and its output is exactly
the differing side's sequence. -/
theorem C1_one_sided_merge (base other tis : List String)
    (h : (other = base ∧ tis ≠ base) ∨ (tis = base ∧ other ≠ base)) :
    (∀ g ∈ merge_regions base other tis false, g.isConflict = false) ∧
    merge_lines base other tis none none "<<<<<<<" "=======" ">>>>>>>" none false false
      = Except.ok (if tis = base then other else tis) := by
  rcases h with ⟨hob, hth⟩ | ⟨htb, hob⟩
  · rw [hob, if_neg hth]
    have h := merge_regions_a_base base tis false
    refine ⟨h.1, ?_⟩
    rw [merge_lines_eq_render]
    rw [render_eq_content _ _ _ _ _ _ _ _ h.1]
    rw [h.2]
  · rw [htb, if_pos rfl]
    have h := merge_regions_b_base base other false
    refine ⟨h.1, ?_⟩
    rw [merge_lines_eq_render]
    rw [render_eq_content _ _ _ _ _ _ _ _ h.1]
    rw [h.2]

/-- Witness for C1 at the `test_append_a` scenario: OTHER appends a line,
THIS is unchanged, and the merge is exactly OTHER. -/
theorem C1_one_sided_merge_witness :
    (∀ g ∈ merge_regions ["aaa\n", "bbb\n"] ["aaa\n", "bbb\n", "222\n"]
        ["aaa\n", "bbb\n"] false, g.isConflict = false) ∧
    merge_lines ["aaa\n", "bbb\n"] ["aaa\n", "bbb\n", "222\n"] ["aaa\n", "bbb\n"]
        none none "<<<<<<<" "=======" ">>>>>>>" none false false
      = Except.ok (if (["aaa\n", "bbb\n"] : List String) = ["aaa\n", "bbb\n"]
          then ["aaa\n", "bbb\n", "222\n"] else ["aaa\n", "bbb\n"]) :=
  C1_one_sided_merge ["aaa\n", "bbb\n"] ["aaa\n", "bbb\n", "222\n"] ["aaa\n", "bbb\n"]
    (Or.inr ⟨rfl, by decide⟩)

/-- C2: when both derived sides carry the identical edit (`other = this = d`),
the merge has no conflicts and the output is that edit applied exactly once;
in particular merging three equal sequences returns the base. -/
theorem C2_identical_edits (base d : List String) :
    (∀ g ∈ merge_regions base d d false, g.isConflict = false) ∧
    merge_lines base d d none none "<<<<<<<" "=======" ">>>>>>>" none false false
      = Except.ok d ∧
    merge_lines base base base none none "<<<<<<<" "=======" ">>>>>>>" none false false
      = Except.ok base := by
  have h := merge_regions_same base d false
  refine ⟨h.1, ?_, ?_⟩
  · rw [merge_lines_eq_render, render_eq_content _ _ _ _ _ _ _ _ h.1, h.2]
  · have h2 := merge_regions_same base base false
    rw [merge_lines_eq_render, render_eq_content _ _ _ _ _ _ _ _ h2.1, h2.2]

/-- C3: the classifier's five-way cascade on one gap, in the spec's order
(Unchanged, ChangedByOther, ChangedByThis, ChangedBySameEdit, Conflict),
together with whole-pipeline anchors from the reference test suite
(`test_insert_clash`, `test_front_insert`, `test_null_insert`). -/
theorem C3_gap_classification :
    (∀ (base a b : List String) (iz zM ia aM ib bM : Nat),
      (seg a ia aM = seg base iz zM → seg b ib bM = seg base iz zM →
        classifyGap base a b false iz zM ia aM ib bM
          = if seg base iz zM = [] then [] else [MergeRegion.unchanged iz zM]) ∧
      (seg b ib bM = seg base iz zM → seg a ia aM ≠ seg base iz zM →
        classifyGap base a b false iz zM ia aM ib bM = [MergeRegion.onlyA ia aM]) ∧
      (seg a ia aM = seg base iz zM → seg b ib bM ≠ seg base iz zM →
        classifyGap base a b false iz zM ia aM ib bM = [MergeRegion.onlyB ib bM]) ∧
      (seg a ia aM ≠ seg base iz zM → seg b ib bM ≠ seg base iz zM →
        seg a ia aM = seg b ib bM →
        classifyGap base a b false iz zM ia aM ib bM = [MergeRegion.same ia aM]) ∧
      (seg a ia aM ≠ seg base iz zM → seg b ib bM ≠ seg base iz zM →
        seg a ia aM ≠ seg b ib bM →
        classifyGap base a b false iz zM ia aM ib bM
          = [MergeRegion.conflict (some (iz, zM)) ia aM ib bM])) ∧
    merge_regions ["aaa\n", "bbb\n"] ["aaa\n", "111\n", "bbb\n"]
        ["aaa\n", "222\n", "bbb\n"] false
      = [MergeRegion.unchanged 0 1, MergeRegion.conflict (some (1, 1)) 1 2 1 2,
          MergeRegion.unchanged 1 2] ∧
    merge_regions ["zz"] ["aaa", "bbb", "zz"] ["zz"] false
      = [MergeRegion.onlyA 0 2, MergeRegion.unchanged 0 1] ∧
    merge_regions ([] : List String) ["aaa", "bbb"] [] false
      = [MergeRegion.onlyA 0 2] := by
  refine ⟨?_, by decide, by decide, by decide⟩
  intro base a b iz zM ia aM ib bM
  refine ⟨?_, ?_, ?_, ?_, ?_⟩
  · intro h1 h2
    rw [classifyGap_tgbg base a b false iz zM ia aM ib bM h2, if_pos h1]
  · intro h1 h2
    rw [classifyGap_tgbg base a b false iz zM ia aM ib bM h1, if_neg h2]
  · intro h1 h2
    rw [classifyGap_ogbg base a b false iz zM ia aM ib bM h1, if_neg h2]
  · intro h1 h2 h3
    rw [classifyGap_ogtg base a b false iz zM ia aM ib bM h3.symm, if_neg h1]
  · intro h1 h2 h3
    simp only [classifyGap]
    rw [if_neg (fun hc => h1 hc.1), if_neg h2, if_neg h1, if_neg (fun hc => h3 hc)]
    rfl

/-- Witness for C3 at the `test_front_insert` gap: a pure insertion by OTHER
(empty base gap) classified as ChangedByOther. -/
theorem C3_gap_classification_witness :
    classifyGap ["zz"] ["aaa", "bbb", "zz"] ["zz"] false 0 0 0 2 0 0
      = [MergeRegion.onlyA 0 2] :=
  (C3_gap_classification.1 ["zz"] ["aaa", "bbb", "zz"] ["zz"] 0 0 0 2 0 0).2.1
    (by decide) (by decide)

/-- C4: requesting reprocess together with a base marker fails with
`cantReprocessAndShowBase` before any region is processed, and it is the only
hard failure: every other configuration returns a result. -/
theorem C4_reprocess_and_show_base (base a b : List String)
    (nameA nameB : Option String) (sm mm em : String) (bm : Option String)
    (rp cp : Bool) (h : bm.isSome = true ∧ rp = true) :
    merge_lines base a b nameA nameB sm mm em bm rp cp
      = Except.error MergeError.cantReprocessAndShowBase ∧
    ∀ (bm' : Option String) (rp' : Bool), ¬(bm'.isSome = true ∧ rp' = true) →
      ∃ out, merge_lines base a b nameA nameB sm mm em bm' rp' cp
        = Except.ok out := by
  constructor
  · unfold merge_lines
    rw [if_pos (by rw [h.1, h.2]; rfl)]
  · intro bm' rp' h'
    unfold merge_lines
    rw [if_neg (by simp only [Bool.and_eq_true]; exact h')]
    exact ⟨_, rfl⟩

/-- Witness for C4 at the `test_reprocess_and_base` configuration. -/
theorem C4_reprocess_and_show_base_witness :
    merge_lines ["a\n"] ["c\n"] ["b\n"] (some "OTHER") (some "THIS")
        "<<<<<<<" "=======" ">>>>>>>" (some "|||||||") true false
      = Except.error MergeError.cantReprocessAndShowBase ∧
    ∃ out, merge_lines ["a\n"] ["c\n"] ["b\n"] (some "OTHER") (some "THIS")
        "<<<<<<<" "=======" ">>>>>>>" none true false = Except.ok out :=
  ⟨(C4_reprocess_and_show_base ["a\n"] ["c\n"] ["b\n"] (some "OTHER") (some "THIS")
      "<<<<<<<" "=======" ">>>>>>>" (some "|||||||") true false ⟨rfl, rfl⟩).1,
    (C4_reprocess_and_show_base ["a\n"] ["c\n"] ["b\n"] (some "OTHER") (some "THIS")
      "<<<<<<<" "=======" ">>>>>>>" (some "|||||||") true false ⟨rfl, rfl⟩).2
      none true (by simp)⟩

/-- Counterexample to C5 as stated: on the named input the reprocessed output
is not two conflicts of "c" versus nothing — the second conflict keeps the
final two "b" lines on the THIS side. -/
theorem C5_counterexample_two_empty_conflicts :
    merge_lines (List.replicate 20 "a\n")
        (List.replicate 10 "a\n" ++ ["c\n"] ++ List.replicate 8 "b\n" ++ ["c\n"])
        (List.replicate 10 "a\n" ++ List.replicate 10 "b\n")
        (some "OTHER") (some "THIS") "<<<<<<<" "=======" ">>>>>>>" none true false
      = Except.ok (List.replicate 10 "a\n"
          ++ ["<<<<<<< OTHER\n", "c\n", "=======\n", ">>>>>>> THIS\n"]
          ++ List.replicate 8 "b\n"
          ++ ["<<<<<<< OTHER\n", "c\n", "=======\n", "b\n", "b\n", ">>>>>>> THIS\n"]) ∧
    (List.replicate 10 "a\n"
        ++ ["<<<<<<< OTHER\n", "c\n", "=======\n", ">>>>>>> THIS\n"]
        ++ List.replicate 8 "b\n"
        ++ ["<<<<<<< OTHER\n", "c\n", "=======\n", "b\n", "b\n", ">>>>>>> THIS\n"])
      ≠ (List.replicate 10 "a\n"
        ++ ["<<<<<<< OTHER\n", "c\n", "=======\n", ">>>>>>> THIS\n"]
        ++ List.replicate 8 "b\n"
        ++ ["<<<<<<< OTHER\n", "c\n", "=======\n", ">>>>>>> THIS\n"]
        ++ ["b\n", "b\n"]) :=
  ⟨rfl, by decide⟩

/-- C5 (amended): reprocessing preserves every non-conflict region verbatim —
so the output outside former conflict spans is identical — and replaces each
conflict only by common runs and smaller base-less conflicts confined to the
original conflict's spans, never enlarged; `merge_lines` with reprocess
renders exactly the reprocessed regions; and on the named input the result has
exactly two small conflicts, "c" versus nothing and "c" versus the final two
"b" lines, not one large block spanning all of the "b" lines. -/
theorem C5_reprocess_minimises :
    (∀ (α : Type) (inst : DecidableEq α) (a b : List α) (regs : List MergeRegion),
      (∀ r ∈ regs, ∀ z al ah bl bh, r = MergeRegion.conflict z al ah bl bh →
        al ≤ ah ∧ bl ≤ bh) →
      ∃ F : MergeRegion → List MergeRegion,
        reprocessRegions a b regs = concatMap F regs ∧
        (∀ r, r.isConflict = false → F r = [r]) ∧
        (∀ r ∈ regs, ∀ z al ah bl bh, r = MergeRegion.conflict z al ah bl bh →
          ∀ g ∈ F r,
            (∃ s e, g = MergeRegion.same s e ∧ al ≤ s ∧ s ≤ e ∧ e ≤ ah) ∨
            (∃ na ra nb rb, g = MergeRegion.conflict none na ra nb rb ∧
              al ≤ na ∧ na ≤ ra ∧ ra ≤ ah ∧ bl ≤ nb ∧ nb ≤ rb ∧ rb ≤ bh))) ∧
    (∀ (base a b : List String) (nameA nameB : Option String) (sm mm em : String)
        (cp : Bool),
      merge_lines base a b nameA nameB sm mm em none true cp
        = Except.ok (concatMap (renderRegion base a b
            ((match nameA with | some nm => sm ++ " " ++ nm | none => sm)
              ++ detectNewline a)
            (mm ++ detectNewline a)
            ((match nameB with | some nm => em ++ " " ++ nm | none => em)
              ++ detectNewline a)
            none)
            (reprocessRegions a b (merge_regions base a b cp)))) ∧
    merge_lines (List.replicate 20 "a\n")
        (List.replicate 10 "a\n" ++ ["c\n"] ++ List.replicate 8 "b\n" ++ ["c\n"])
        (List.replicate 10 "a\n" ++ List.replicate 10 "b\n")
        (some "OTHER") (some "THIS") "<<<<<<<" "=======" ">>>>>>>" none true false
      = Except.ok (List.replicate 10 "a\n"
          ++ ["<<<<<<< OTHER\n", "c\n", "=======\n", ">>>>>>> THIS\n"]
          ++ List.replicate 8 "b\n"
          ++ ["<<<<<<< OTHER\n", "c\n", "=======\n", "b\n", "b\n", ">>>>>>> THIS\n"]) := by
  refine ⟨?_, ?_, rfl⟩
  · intro α inst a b regs hwf
    exact reprocessRegions_frame a b regs hwf
  · intro base a b nameA nameB sm mm em cp
    rfl

/-- Witness for C5's universally quantified frame part at a concrete conflict
region. -/
theorem C5_reprocess_minimises_witness :
    ∃ F : MergeRegion → List MergeRegion,
      reprocessRegions ["x\n", "y\n"] ["x\n", "z\n"]
          [MergeRegion.conflict (some (0, 2)) 0 2 0 2]
        = concatMap F [MergeRegion.conflict (some (0, 2)) 0 2 0 2] ∧
      (∀ r, r.isConflict = false → F r = [r]) ∧
      (∀ r ∈ [MergeRegion.conflict (some (0, 2)) 0 2 0 2],
        ∀ z al ah bl bh, r = MergeRegion.conflict z al ah bl bh →
        ∀ g ∈ F r,
          (∃ s e, g = MergeRegion.same s e ∧ al ≤ s ∧ s ≤ e ∧ e ≤ ah) ∨
          (∃ na ra nb rb, g = MergeRegion.conflict none na ra nb rb ∧
            al ≤ na ∧ na ≤ ra ∧ ra ≤ ah ∧ bl ≤ nb ∧ nb ≤ rb ∧ rb ≤ bh)) :=
  C5_reprocess_minimises.1 String instDecidableEqString ["x\n", "y\n"] ["x\n", "z\n"]
    [MergeRegion.conflict (some (0, 2)) 0 2 0 2]
    (by
      intro r hr z al ah bl bh hform
      simp at hr
      subst hr
      cases hform
      exact ⟨by omega, by omega⟩)

/-- C6: the sync regions are monotonically increasing and non-overlapping in
all three coordinate systems simultaneously, stay within the three sequences,
denote equal subsequences, and end with the zero-length sentinel just past the
end of all three sequences. -/
theorem C6_sync_region_invariants (α : Type) (inst : DecidableEq α)
    (base a b : List α) :
    (find_sync_regions base a b).getLast?
        = some ⟨base.length, base.length, a.length, a.length, b.length, b.length⟩ ∧
    List.Pairwise Rsync (find_sync_regions base a b) ∧
    ∀ r ∈ find_sync_regions base a b,
      r.zLo ≤ r.zHi ∧ r.aLo ≤ r.aHi ∧ r.bLo ≤ r.bHi ∧
      r.zHi ≤ base.length ∧ r.aHi ≤ a.length ∧ r.bHi ≤ b.length ∧
      seg base r.zLo r.zHi = seg a r.aLo r.aHi ∧
      seg base r.zLo r.zHi = seg b r.bLo r.bHi := by
  refine ⟨find_sync_regions_getLast base a b, find_sync_regions_pairwise base a b, ?_⟩
  intro r hr
  have h := find_sync_regions_mem base a b r hr
  exact ⟨h.1.1, h.1.2.1, h.1.2.2, h.2.1, h.2.2.1, h.2.2.2.1, h.2.2.2.2.2.1,
    h.2.2.2.2.2.2⟩

/-- C7: a conflict is rendered as the start marker line (suffixed with the
OTHER label), the OTHER content, the mid marker line, the THIS content and the
end marker line (suffixed with the THIS label), all marker lines carrying the
line-ending convention detected from the surrounding sequence, as the DOS, MAC
and `test_append_clash` scenarios show concretely. -/
theorem C7_conflict_rendering :
    (∀ (base a b : List String) (sL mL eL : String) (z : Option (Nat × Nat))
        (al ah bl bh : Nat),
      renderRegion base a b sL mL eL none (MergeRegion.conflict z al ah bl bh)
        = [sL] ++ seg a al ah ++ [mL] ++ seg b bl bh ++ [eL]) ∧
    (∀ (base a b : List String) (na nb sm mm em : String) (cp : Bool),
      merge_lines base a b (some na) (some nb) sm mm em none false cp
        = Except.ok (concatMap (renderRegion base a b
            ((sm ++ " " ++ na) ++ detectNewline a) (mm ++ detectNewline a)
            ((em ++ " " ++ nb) ++ detectNewline a) none)
            (merge_regions base a b cp))) ∧
    merge_lines ["a\r\n"] ["c\r\n"] ["b\r\n"] (some "OTHER") (some "THIS")
        "<<<<<<<" "=======" ">>>>>>>" none false false
      = Except.ok ["<<<<<<< OTHER\r\n", "c\r\n", "=======\r\n", "b\r\n",
          ">>>>>>> THIS\r\n"] ∧
    merge_lines ["a\r"] ["c\r"] ["b\r"] (some "OTHER") (some "THIS")
        "<<<<<<<" "=======" ">>>>>>>" none false false
      = Except.ok ["<<<<<<< OTHER\r", "c\r", "=======\r", "b\r", ">>>>>>> THIS\r"] ∧
    merge_lines ["aaa\n", "bbb\n"] ["aaa\n", "bbb\n", "222\n"]
        ["aaa\n", "bbb\n", "333\n"] (some "a") (some "b") "<<" "--" ">>"
        none false false
      = Except.ok ["aaa\n", "bbb\n", "<< a\n", "222\n", "--\n", "333\n", ">> b\n"] ∧
    (strEndsWith "<<<<<<< OTHER\r\n" "\r\n" = true ∧
      strEndsWith "=======\r\n" "\r\n" = true ∧
      strEndsWith ">>>>>>> THIS\r\n" "\r\n" = true) := by
  refine ⟨?_, fun base a b na nb sm mm em cp => rfl, rfl, rfl, rfl, by decide⟩
  intro base a b sL mL eL z al ah bl bh
  simp [renderRegion]

/-- C8: cherry-pick conflict reduction is intentionally asymmetric in the
order of the two derived arguments — the two argument orders of the reference
scenario produce the recorded outputs, and the swapped result is not the
mirror image of the first. -/
theorem C8_cherrypick_asymmetry :
    merge_lines ["a\n", "b\n"] ["a\n"] ["a\n", "b\n", "c\n"] none none
        "<<<<<<<" "=======" ">>>>>>>" none false true
      = Except.ok ["a\n", "<<<<<<<\n", "=======\n", "c\n", ">>>>>>>\n"] ∧
    String.join ["a\n", "<<<<<<<\n", "=======\n", "c\n", ">>>>>>>\n"]
      = "a\n<<<<<<<\n=======\nc\n>>>>>>>\n" ∧
    merge_lines ["a\n", "b\n"] ["a\n", "b\n", "c\n"] ["a\n"] none none
        "<<<<<<<" "=======" ">>>>>>>" none false true
      = Except.ok ["a\n", "<<<<<<<\n", "b\n", "c\n", "=======\n", ">>>>>>>\n"] ∧
    String.join ["a\n", "<<<<<<<\n", "b\n", "c\n", "=======\n", ">>>>>>>\n"]
      = "a\n<<<<<<<\nb\nc\n=======\n>>>>>>>\n" ∧
    "a\n<<<<<<<\nb\nc\n=======\n>>>>>>>\n" ≠ "a\n<<<<<<<\nc\n=======\n>>>>>>>\n" :=
  ⟨rfl, rfl, rfl, rfl, by decide⟩

/-- C9: merge groups materialize each region through its tag-dependent
coordinate system — `unchanged` reads BASE, `same`/`onlyA` read OTHER,
`onlyB` reads THIS, and a conflict carries base, OTHER and THIS spans in that
order — as the `test_front_insert`, `test_insert_clash` and
`test_allow_objects` scenarios show concretely. -/
theorem C9_tag_dependent_coordinates :
    (∀ (α : Type) (inst : DecidableEq α) (base a b : List α) (cp : Bool),
      merge_groups base a b cp = (merge_regions base a b cp).map (materialize base a b)) ∧
    (∀ (base a b : List String) (lo hi : Nat),
      materialize base a b (MergeRegion.unchanged lo hi)
          = MergeGroup.unchanged (seg base lo hi) ∧
      materialize base a b (MergeRegion.same lo hi) = MergeGroup.same (seg a lo hi) ∧
      materialize base a b (MergeRegion.onlyA lo hi) = MergeGroup.onlyA (seg a lo hi) ∧
      materialize base a b (MergeRegion.onlyB lo hi) = MergeGroup.onlyB (seg b lo hi)) ∧
    (∀ (base a b : List String) (zs ze al ah bl bh : Nat),
      materialize base a b (MergeRegion.conflict (some (zs, ze)) al ah bl bh)
        = MergeGroup.conflict (seg base zs ze) (seg a al ah) (seg b bl bh)) ∧
    merge_regions ["zz"] ["aaa", "bbb", "zz"] ["zz"] false
      = [MergeRegion.onlyA 0 2, MergeRegion.unchanged 0 1] ∧
    merge_groups ["zz"] ["aaa", "bbb", "zz"] ["zz"] false
      = [MergeGroup.onlyA ["aaa", "bbb"], MergeGroup.unchanged ["zz"]] ∧
    merge_groups ["aaa\n", "bbb\n"] ["aaa\n", "111\n", "bbb\n"]
        ["aaa\n", "222\n", "bbb\n"] false
      = [MergeGroup.unchanged ["aaa\n"], MergeGroup.conflict [] ["111\n"] ["222\n"],
          MergeGroup.unchanged ["bbb\n"]] ∧
    merge_regions [(97, 97), (98, 98), (99, 99), (100, 100), (101, 101)]
        ([(97, 97), (98, 98), (99, 99), (100, 100), (101, 101)] ++ [(102, 102)])
        ([((90 : Nat), (90 : Nat))] ++ [(97, 97), (98, 98), (99, 99), (100, 100), (101, 101)])
        false
      = [MergeRegion.onlyB 0 1, MergeRegion.unchanged 0 5, MergeRegion.onlyA 5 6] := by
  refine ⟨fun α inst base a b cp => rfl, ?_, fun base a b zs ze al ah bl bh => rfl,
    by decide, by decide, by decide, by decide⟩
  intro base a b lo hi
  exact ⟨rfl, rfl, rfl, rfl⟩

/-- C10: `find_unconflicted` returns the base span of every sync region except
the zero-length trailing sentinel, one pair per region without coalescing
abutting spans, as the `test_no_changes`, `test_no_conflicts` and
`test_insert_clash` scenarios show concretely. -/
theorem C10_find_unconflicted_spans :
    (∀ (α : Type) (inst : DecidableEq α) (base a b : List α),
      find_unconflicted base a b
        = (find_sync_regions base a b).dropLast.map (fun r => (r.zLo, r.zHi))) ∧
    find_unconflicted ["aaa", "bbb"] ["aaa", "bbb"] ["aaa", "bbb"] = [(0, 2)] ∧
    find_unconflicted ["aaa", "bbb"] ["aaa", "111", "bbb"] ["aaa", "bbb"]
      = [(0, 1), (1, 2)] ∧
    find_unconflicted ["aaa\n", "bbb\n"] ["aaa\n", "111\n", "bbb\n"]
        ["aaa\n", "222\n", "bbb\n"] = [(0, 1), (1, 2)] :=
  ⟨fun α inst base a b => find_unconflicted_eq base a b, by decide, by decide, by decide⟩

end Merge3
